import Mathlib

/-!
Verification of the mib-viewer MIB parsing core against its specification.

The development shallowly embeds the text-processing pipeline of
`mib_browser.py` (comment stripping, declaration scanning, OID-arc
resolution, tree flattening, search) and of `parser.py` (the
`SmiV2Parser` variant with its fixed-point OID resolver).  Strings are
modelled as `List Char`; every regular expression of the source is
translated into an explicit deterministic scanner (all the regexes
involved are free of backtracking ambiguity: their character classes are
pairwise disjoint at each greedy/lazy boundary, which is noted at each
translation).  All definitions are executable, structurally recursive or
fuel-driven, so that concrete runs reduce inside the kernel.
-/

namespace MibViewer

/-! ## Python string primitives -/

/-- ASCII whitespace as recognized by Python's `str.split()` / `str.strip()`
and by the regex class `\s` (restricted to ASCII, which is all the MIB
grammar uses). -/
def pySpace (c : Char) : Bool :=
  c == ' ' || c == '\t' || c == '\n' || c == '\r' || c == '\x0b' || c == '\x0c'

/-- ASCII decimal digit, the regex class `[0-9]` and the core of
Python's `str.isdigit` for ASCII text. -/
def isDigitC (c : Char) : Bool :=
  '0' ≤ c && c ≤ '9'

/-- Python `s.isdigit()` (ASCII): nonempty and all digits. -/
def pyIsDigit (cs : List Char) : Bool :=
  !cs.isEmpty && cs.all isDigitC

/-- ASCII letter, the regex class `[A-Za-z]`. -/
def isAlphaC (c : Char) : Bool :=
  ('a' ≤ c && c ≤ 'z') || ('A' ≤ c && c ≤ 'Z')

/-- The regex class `\w` = `[A-Za-z0-9_]` (ASCII). -/
def isWordC (c : Char) : Bool :=
  isAlphaC c || isDigitC c || c == '_'

/-- The regex class `[\w\-]` used for identifier tails in the source. -/
def isWordDash (c : Char) : Bool :=
  isWordC c || c == '-'

/-- The regex class `[a-zA-Z0-9-]` used by `parser.py` for identifiers. -/
def isIdentPy (c : Char) : Bool :=
  isAlphaC c || isDigitC c || c == '-'

/-- The regex class `[A-Za-z0-9\-._]` used by `RE_HEADER` for module names. -/
def isHeaderIdent (c : Char) : Bool :=
  isAlphaC c || isDigitC c || c == '-' || c == '.' || c == '_'

/-- Python `str.strip()`: remove leading and trailing whitespace. -/
def pyStrip (cs : List Char) : List Char :=
  ((cs.dropWhile pySpace).reverse.dropWhile pySpace).reverse

/-- Python `str.split()` with no argument: split on whitespace runs,
discarding empty pieces.  `acc` is the current word, reversed. -/
def pySplitWsAux : List Char → List Char → List (List Char)
  | acc, [] => if acc.isEmpty then [] else [acc.reverse]
  | acc, c :: cs =>
    if pySpace c then
      if acc.isEmpty then pySplitWsAux [] cs else acc.reverse :: pySplitWsAux [] cs
    else
      pySplitWsAux (c :: acc) cs

def pySplitWs (cs : List Char) : List (List Char) :=
  pySplitWsAux [] cs

/-- Python `str.split(sep)` for a one-character separator: keeps empty
pieces, never returns an empty list. -/
def splitOnC (sep : Char) : List Char → List (List Char)
  | [] => [[]]
  | c :: cs =>
    if c == sep then [] :: splitOnC sep cs
    else
      match splitOnC sep cs with
      | [] => [[c]]
      | h :: t => (c :: h) :: t

/-- Whether `needle` is a leading run of `hay` (Python `str.startswith`). -/
def leadsWith : List Char → List Char → Bool
  | [], _ => true
  | _ :: _, [] => false
  | a :: as, b :: bs => a == b && leadsWith as bs

/-- Whether `needle` occurs contiguously inside `hay` (Python `in`). -/
def containsSeq (needle : List Char) : List Char → Bool
  | [] => leadsWith needle []
  | c :: cs => leadsWith needle (c :: cs) || containsSeq needle cs

/-- Python `str.replace(pat, rep)` for nonempty `pat`: leftmost,
non-overlapping.  Fuel-driven so it reduces in the kernel; fuel
`cs.length` always suffices since each step consumes one character. -/
def replaceSeqAux (pat rep : List Char) : Nat → List Char → List Char
  | 0, cs => cs
  | _ + 1, [] => []
  | fuel + 1, c :: cs =>
    if !pat.isEmpty && leadsWith pat (c :: cs) then
      rep ++ replaceSeqAux pat rep fuel (cs.drop (pat.length - 1))
    else
      c :: replaceSeqAux pat rep fuel cs

def replaceSeq (pat rep cs : List Char) : List Char :=
  replaceSeqAux pat rep cs.length cs

/-- ASCII `str.lower()`. -/
def lowerC (c : Char) : Char :=
  if 'A' ≤ c && c ≤ 'Z' then Char.ofNat (c.toNat + 32) else c

def pyLower (cs : List Char) : List Char := cs.map lowerC

/-! ## Text Normalizer: `strip_comments` (mib_browser.py:1055)

`RE_LINE_COMMENT = --[^\n]*` applied with `re.sub` removes, on each
line, everything from the first `--` on; the two-state machine below is
that substitution (state `true` = inside a comment that ends at the next
newline).  It also embeds `re.sub(r'--.*', '', text)` from
`SmiV2Parser.__init__` (parser.py:7), which is the same pattern since
`.` does not match a newline there. -/

def stripLCAux : Bool → List Char → List Char
  | _, [] => []
  | true, c :: cs => if c == '\n' then c :: stripLCAux false cs else stripLCAux true cs
  | false, c :: cs =>
    match cs with
    | [] => [c]
    | d :: cs' =>
      if c == '-' && d == '-' then stripLCAux true cs'
      else c :: stripLCAux false (d :: cs')

/-- The substitution `RE_LINE_COMMENT.sub("", segment)`. -/
def stripLC (cs : List Char) : List Char := stripLCAux false cs

/-- The match list of `RE_QUOTED.finditer(text)` for `RE_QUOTED =
"([^"]*)"`: leftmost, non-overlapping complete quoted spans.  Returns
the list of (text before the span, the span itself with its quotes) and
the trailing text after the last span.  Fuel-driven; fuel `cs.length`
suffices since each step consumes at least the two quote characters. -/
def splitQuotesAux : Nat → List Char → List (List Char × List Char) × List Char
  | 0, cs => ([], cs)
  | fuel + 1, cs =>
    let pre := cs.takeWhile (fun c => c != '"')
    match cs.dropWhile (fun c => c != '"') with
    | [] => ([], cs)
    | _ :: r =>
      let inside := r.takeWhile (fun c => c != '"')
      match r.dropWhile (fun c => c != '"') with
      | [] => ([], cs)
      | _ :: r2 =>
        let (segs, tail) := splitQuotesAux fuel r2
        ((pre, '"' :: inside ++ ['"']) :: segs, tail)

def splitQuotes (cs : List Char) : List (List Char × List Char) × List Char :=
  splitQuotesAux cs.length cs

/-- `strip_comments` (mib_browser.py:1055-1064): comment-strip the text
between quoted spans, keep each quoted span verbatim. -/
def stripCommentsL (cs : List Char) : List Char :=
  let (segs, tail) := splitQuotes cs
  (segs.map (fun pq => stripLC pq.1 ++ pq.2)).flatten ++ stripLC tail

def strip_comments (s : String) : String :=
  ⟨stripCommentsL s.data⟩

example : strip_comments "ab -- c\nd" = "ab \nd" := by decide
example : strip_comments "a \"x -- y\" b" = "a \"x -- y\" b" := by decide
example : strip_comments "x -- \"c\" y" = "x \"c\" y" := by decide

/-! ## Symbol/OID Resolver of mib_browser.py -/

/-- Python dict assignment `d[k] = v`: overwrites in place, else appends
(Python dicts preserve the position of the first insertion). -/
def dictSet (k : String) (v : String) : List (String × String) → List (String × String)
  | [] => [(k, v)]
  | (k', v') :: t => if k' == k then (k, v) :: t else (k', v') :: dictSet k v t

/-- The constant table of well-known root arcs (mib_browser.py:924-951). -/
def BASE_OIDS : List (String × String) :=
  [("ccitt", "0"), ("iso", "1"), ("joint-iso-ccitt", "2"),
   ("org", "1.3"), ("dod", "1.3.6"), ("internet", "1.3.6.1"),
   ("directory", "1.3.6.1.1"), ("mgmt", "1.3.6.1.2"), ("mib-2", "1.3.6.1.2.1"),
   ("experimental", "1.3.6.1.3"), ("private", "1.3.6.1.4"),
   ("enterprises", "1.3.6.1.4.1"), ("security", "1.3.6.1.5"),
   ("snmpV2", "1.3.6.1.6"), ("snmpDomains", "1.3.6.1.6.1"),
   ("snmpProxys", "1.3.6.1.6.2"), ("snmpModules", "1.3.6.1.6.3")]

/-- `re.fullmatch(r"\d+(?:\.\d+)+", tok)`: a dotted numeric with at
least two arcs, i.e. splitting on `.` yields at least two pieces, each a
nonempty digit run. -/
def isDottedNum (cs : List Char) : Bool :=
  match splitOnC '.' cs with
  | _ :: _ :: _ => (splitOnC '.' cs).all pyIsDigit
  | _ => false

/-- Numeric value of a digit run (`int(...)` on a digits-only string). -/
def digitsToNat (ds : List Char) : Nat :=
  ds.foldl (fun n c => n * 10 + (c.toNat - 48)) 0

/-- `re.match(r"([A-Za-z][\w\-]*)\s*\(\s*(\d+)\s*\)", tok)`: a prefix
match of a `label(number)` arc.  The scan is deterministic because the
classes at each greedy boundary (`[\w\-]` / `\s` / `(` / `\d` / `)`)
are pairwise disjoint. -/
def matchLabelParen (cs : List Char) : Option (List Char × Nat) :=
  match cs with
  | [] => none
  | c :: rest =>
    if isAlphaC c then
      let label := c :: rest.takeWhile isWordDash
      let r2 := (rest.dropWhile isWordDash).dropWhile pySpace
      match r2 with
      | '(' :: r3 =>
        let r4 := r3.dropWhile pySpace
        let ds := r4.takeWhile isDigitC
        if ds.isEmpty then none
        else
          match (r4.dropWhile isDigitC).dropWhile pySpace with
          | ')' :: _ => some (label, digitsToNat ds)
          | _ => none
      | _ => none
    else none

/-- `re.match(r"^[A-Za-z][\w\-]*$", tok)` as a Bool. -/
def isIdentTok (cs : List Char) : Bool :=
  match cs with
  | [] => false
  | c :: rest => isAlphaC c && rest.all isWordDash

/-- `_parse_arc_token` (mib_browser.py:1070-1078).  The final two source
branches (`^[A-Za-z][\w\-]*$` full match, and the fallback) both return
`(tok, None)`, so they collapse here. -/
def parse_arc_token (tok0 : List Char) : List Char × Option Nat :=
  let tok := pyStrip tok0
  if tok.isEmpty then (tok, none)
  else if isDottedNum tok then (tok, none)
  else if pyIsDigit tok then (tok, none)
  else
    match matchLabelParen tok with
    | some (label, n) => (label, some n)
    | none => (tok, none)

/-- Python truthiness on an optional string: `None` and `""` are falsy. -/
def truthyOpt : Option String → Option String
  | some "" => none
  | o => o

/-- The token list of `_resolve_braced_oid` (mib_browser.py:1086-1090):
split the body on whitespace, re-split each part on commas, strip, and
drop empties. -/
def arcTokens (body : String) : List (List Char) :=
  (((pySplitWs (replaceSeq ['\n'] [' '] body.data)).map
      (fun p => (splitOnC ',' p).map pyStrip)).flatten).filter (fun t => !t.isEmpty)

/-- The parent lookup chain `sym2oid.get(parent) or BASE_OIDS.get(parent)`
(mib_browser.py:1097). -/
def parentBase (parentTok : List Char) (sym2oid : List (String × String)) : Option String :=
  match truthyOpt (List.lookup (⟨parentTok⟩ : String) sym2oid) with
  | some v => some v
  | none => List.lookup (⟨parentTok⟩ : String) BASE_OIDS

/-- The initial path derived from the parent token
(mib_browser.py:1092-1101): dotted numbers split, a lookup hit splits,
an unresolvable parent stays as one symbolic segment. -/
def parentPath (parentTok : List Char) (sym2oid : List (String × String)) : List (List Char) :=
  if isDottedNum parentTok then splitOnC '.' parentTok
  else if pyIsDigit parentTok then [parentTok]
  else
    match truthyOpt (parentBase parentTok sym2oid) with
    | some b => splitOnC '.' b.data
    | none => [parentTok]

/-- One iteration of the `for tok in tokens[1:]` loop of
`_resolve_braced_oid` (mib_browser.py:1103-1110): every branch appends
to the accumulated path. -/
def arcStep (acc : List (List Char)) (tok : List Char) : List (List Char) :=
  if pyIsDigit (parse_arc_token tok).1 then acc ++ [(parse_arc_token tok).1]
  else if isDottedNum (parse_arc_token tok).1 then acc ++ splitOnC '.' (parse_arc_token tok).1
  else
    match (parse_arc_token tok).2 with
    | some n => acc ++ [(Nat.repr n).data]
    | none => acc ++ [(parse_arc_token tok).1]

/-- `_resolve_braced_oid` (mib_browser.py:1080-1112).  Returns `none`
exactly where the Python raises: when `parts` is nonempty but every
part consists only of commas, `tokens` is empty and `tokens[0]` raises
an `IndexError`. -/
def resolve_braced_oid (body : String) (sym2oid : List (String × String)) : Option String :=
  if (pySplitWs (replaceSeq ['\n'] [' '] body.data)).isEmpty then some "" else
  match arcTokens body with
  | [] => none
  | t0 :: rest =>
    some ⟨List.intercalate ['.']
      ((rest.foldl arcStep (parentPath (parse_arc_token t0).1 sym2oid)).filter
        (fun s => !s.isEmpty))⟩

example : resolve_braced_oid "iso 3 6 1" [] = some "1.3.6.1" := by decide
example : resolve_braced_oid "internet 2 1" [("internet", "1.3.6.1")] = some "1.3.6.1.2.1" := by decide
example : resolve_braced_oid "" [] = some "" := by decide
example : resolve_braced_oid "," [] = none := by decide
example : resolve_braced_oid "foo 1" [] = some "foo.1" := by decide
example : resolve_braced_oid "mib-2 1 1" [] = some "1.3.6.1.2.1.1.1" := by decide
example : resolve_braced_oid "label(4) 7" [] = some "label.7" := by decide

/-! ## Field Extractor (mib_browser.py) -/

/-- The line boundaries of Python `str.splitlines()` other than the
two-character `\r\n`: `\n`, `\r`, `\v`, `\f`, FS, GS, RS, NEL, LINE
SEPARATOR and PARAGRAPH SEPARATOR. -/
def isPyLineBreak (c : Char) : Bool :=
  c == '\n' || c == '\r' || c == '\x0b' || c == '\x0c' ||
  c == '\x1c' || c == '\x1d' || c == '\x1e' || c == '\x85' ||
  c == '\u2028' || c == '\u2029'

/-- Python `str.splitlines()`: split at every line boundary, `\r\n`
counting as one boundary, with no empty trailing piece. -/
def splitLinesPyAux : List Char → List Char → List (List Char)
  | acc, [] => if acc.isEmpty then [] else [acc.reverse]
  | acc, '\r' :: '\n' :: cs => acc.reverse :: splitLinesPyAux [] cs
  | acc, c :: cs =>
    if isPyLineBreak c then acc.reverse :: splitLinesPyAux [] cs
    else splitLinesPyAux (c :: acc) cs

def splitLinesPy (cs : List Char) : List (List Char) :=
  splitLinesPyAux [] cs

/-- Whether `\n[A-Z\-]+\b` matches at a position whose `\n` was just
consumed (`cs` starts after the newline).  `[A-Z\-]+` is greedy but
backtracks against the trailing `\b`, so the alternative matches iff
*some* nonempty prefix of the maximal `[A-Z\-]` run ends at a word
boundary: a split position whose preceding character's wordness (`-` is
not a word character, `A`-`Z` are) differs from the following
character's (the end of input is not a word character). -/
def capsTermAt (cs : List Char) : Bool :=
  let run := cs.takeWhile (fun c => ('A' ≤ c && c ≤ 'Z') || c == '-')
  let rest := cs.drop run.length
  !run.isEmpty &&
    (List.range run.length).any (fun i =>
      let prevW := isWordC (run.getD i ' ')
      let nextW :=
        match run.drop (i + 1) with
        | d :: _ => isWordC d
        | [] =>
          match rest with
          | d :: _ => isWordC d
          | [] => false
      prevW != nextW)

/-- Whether the value terminator `(?:\n[A-Z\-]+\b|::=|\Z)` of
`_extract_field` matches at this position. -/
def fieldTermAt (cs : List Char) : Bool :=
  (match cs with
   | '\n' :: r => capsTermAt r
   | _ => false)
  || leadsWith [':', ':', '='] cs
  || cs.isEmpty

/-- The lazy `(.*?)` of `_extract_field`: value characters up to the
first terminator position. -/
def takeTilTerm : List Char → List Char
  | [] => []
  | c :: cs => if fieldTermAt (c :: cs) then [] else c :: takeTilTerm cs

/-- Locate the first `\b{key}\b\s+` occurrence (`prevW` tracks whether
the preceding character is a word character, deciding the leading
`\b`; the mandatory following whitespace subsumes the trailing `\b`).
Returns the suffix starting right after the key. -/
def findKeyWs (key : List Char) : Bool → List Char → Option (List Char)
  | _, [] => none
  | prevW, c :: cs =>
    if !prevW && leadsWith key (c :: cs) &&
        (match (c :: cs).drop key.length with
         | d :: _ => pySpace d
         | [] => false) then
      some ((c :: cs).drop key.length)
    else
      findKeyWs key (isWordC c) cs

/-- First `"(.*?)"` span inside a value (`re.search` with `re.S`). -/
def firstQuoted (cs : List Char) : Option (List Char) :=
  match cs.dropWhile (fun c => c != '"') with
  | '"' :: r =>
    match r.dropWhile (fun c => c != '"') with
    | '"' :: _ => some (r.takeWhile (fun c => c != '"'))
    | _ => none
  | _ => none

/-- `_extract_field` (mib_browser.py:1114-1123). -/
def extract_field (block : String) (key : String) : String :=
  match findKeyWs key.data false block.data with
  | none => ""
  | some afterKey =>
    let v0 := afterKey.dropWhile pySpace
    let val := pyStrip (takeTilTerm v0)
    if key == "DESCRIPTION" then
      match firstQuoted val with
      | some q => ⟨pyStrip q⟩
      | none => ⟨List.intercalate [' '] (pySplitWs val)⟩
    else ⟨List.intercalate [' '] (pySplitWs val)⟩

/-- One candidate position of `\b{key}\b\s*\{(.*?)\}`
(`_extract_list_in_braces`); `none` means the full pattern does not
match here and the search moves on. -/
def tryListBraces (key : List Char) (prevW : Bool) (cs : List Char) : Option (List Char) :=
  if prevW then none
  else if !leadsWith key cs then none
  else
    let after := cs.drop key.length
    let bOk := match after with
      | [] => true
      | d :: _ => !isWordC d
    if !bOk then none
    else
      match after.dropWhile pySpace with
      | '\x7b' :: r =>
        match r.dropWhile (fun x => x != '\x7d') with
        | '\x7d' :: _ => some (r.takeWhile (fun x => x != '\x7d'))
        | _ => none
      | _ => none

def findListBraces (key : List Char) : Bool → List Char → Option (List Char)
  | _, [] => none
  | prevW, c :: cs =>
    match tryListBraces key prevW (c :: cs) with
    | some r => some r
    | none => findListBraces key (isWordC c) cs

/-- `re.match(r"[A-Za-z][\w\-]*", s)`: the identifier prefix. -/
def identHead : List Char → Option (List Char)
  | [] => none
  | c :: r => if isAlphaC c then some (c :: r.takeWhile isWordDash) else none

/-- `_extract_list_in_braces` (mib_browser.py:1125-1130). -/
def extract_list_in_braces (body : String) (key : String) : List String :=
  match findListBraces key.data false body.data with
  | none => []
  | some inside =>
    let items := ((splitOnC ',' inside).map pyStrip).filter (fun s => !s.isEmpty)
    items.filterMap (fun s => (identHead s).map (fun ident => (⟨ident⟩ : String)))

/-- `re.findall(r"\bSUPPORTS\s+([A-Za-z][\w\-]*)", body)` (cf.
mib_browser.py:1319).  Fuel-driven; `prevW` decides the `\b`, and a
successful capture resumes right after the captured identifier. -/
def findSupportsAux : Nat → Bool → List Char → List (List Char)
  | 0, _, _ => []
  | _ + 1, _, [] => []
  | fuel + 1, prevW, c :: cs =>
    let here := c :: cs
    if !prevW && leadsWith "SUPPORTS".data here then
      let after := here.drop 8
      match after with
      | w :: _ =>
        if pySpace w then
          match after.dropWhile pySpace with
          | d :: r2 =>
            if isAlphaC d then
              let ident := d :: r2.takeWhile isWordDash
              let restAfter := r2.dropWhile isWordDash
              let lastW := match ident.getLast? with
                | some lc => isWordC lc
                | none => false
              ident :: findSupportsAux fuel lastW restAfter
            else findSupportsAux fuel (isWordC c) cs
          | [] => findSupportsAux fuel (isWordC c) cs
        else findSupportsAux fuel (isWordC c) cs
      | [] => findSupportsAux fuel (isWordC c) cs
    else findSupportsAux fuel (isWordC c) cs

def findSupports (body : String) : List String :=
  (findSupportsAux body.data.length false body.data).map (fun s => (⟨pyStrip s⟩ : String))

/-! ## Enum extraction (mib_browser.py:1132-1149) -/

/-- `ENUM_SET_RE.search` for `\{([^}]*)\}`: the leftmost match starts at
the first `{`; it exists iff some `}` follows that `{`. -/
def enumSetSearch (cs : List Char) : Option (List Char) :=
  match cs.dropWhile (fun c => c != '\x7b') with
  | '\x7b' :: r =>
    match r.dropWhile (fun c => c != '\x7d') with
    | '\x7d' :: _ => some (r.takeWhile (fun c => c != '\x7d'))
    | _ => none
  | _ => none

/-- The per-item match of `_extract_enums_from_syntax`: an anchored
attempt `([A-Za-z][A-Za-z0-9\-_]*)\s*\(\s*([0-9]+)\s*\)$` and, failing
that, the same pattern unanchored.  Whenever the prefix matches, both
attempts capture the same groups, so the combination is exactly the
prefix match (the number is kept as its literal digit string,
`mm.group(2)`). -/
def matchEnumPair : List Char → Option (List Char × List Char)
  | [] => none
  | c :: rest =>
    if isAlphaC c then
      let label := c :: rest.takeWhile isWordDash
      match (rest.dropWhile isWordDash).dropWhile pySpace with
      | '(' :: r3 =>
        let r4 := r3.dropWhile pySpace
        let ds := r4.takeWhile isDigitC
        if ds.isEmpty then none
        else
          match (r4.dropWhile isDigitC).dropWhile pySpace with
          | ')' :: _ => some (label, ds)
          | _ => none
      | _ => none
    else none

/-- `_extract_enums_from_syntax` (mib_browser.py:1134-1149). -/
def extract_enums_from_syntax (syn : String) : List (String × String) :=
  if syn == "" then []
  else
    match enumSetSearch syn.data with
    | none => []
    | some body =>
      ((splitOnC ',' body).map pyStrip).filterMap (fun item =>
        (matchEnumPair item).map (fun lp => ((⟨lp.1⟩ : String), (⟨lp.2⟩ : String))))

example : extract_enums_from_syntax "INTEGER \x7b up(1), down(2) \x7d" =
    [("up", "1"), ("down", "2")] := by decide
example : extract_enums_from_syntax "INTEGER \x7b up(1), broken, down(2) \x7d" =
    [("up", "1"), ("down", "2")] := by decide
example : extract_field "SYNTAX INTEGER \x7b up(1) \x7d\nMAX-ACCESS read-only" "SYNTAX" =
    "INTEGER \x7b up(1) \x7d" := by decide
example : extract_field "STATUS current\nDESCRIPTION \"A textual description\"\n::= x" "DESCRIPTION" =
    "A textual description" := by decide

/-! ## Definition Scanner (mib_browser.py regexes, lines 953-972)

Each `(?m)^`-anchored regex is translated into a matcher that is tried
at every line-start position, in order, resuming after the end of each
(non-overlapping) match, exactly as `re.finditer` does.  The driver
tracks whether the current position follows a newline; a matcher
returns its capture, the rest of the text after the match, and whether
that rest position is a line start. -/

def scanAllAux {α : Type} (m : List Char → Option (α × List Char × Bool)) :
    Nat → Bool → List Char → List α
  | 0, _, _ => []
  | _ + 1, _, [] => []
  | fuel + 1, atLS, c :: cs =>
    if atLS then
      match m (c :: cs) with
      | some (a, rest, ls) => a :: scanAllAux m fuel ls rest
      | none => scanAllAux m fuel (c == '\n') cs
    else scanAllAux m fuel (c == '\n') cs

def scanAll {α : Type} (m : List Char → Option (α × List Char × Bool))
    (cs : List Char) : List α :=
  scanAllAux m cs.length true cs

/-- The trailing `::=\s*\{(?P<parent>[^}]*)\}` of the declaration
regexes, tried at one position; returns the brace contents and the rest
after the closing brace. -/
def tryColEqBrace (cs : List Char) : Option (List Char × List Char) :=
  if leadsWith [':', ':', '='] cs then
    match (cs.drop 3).dropWhile pySpace with
    | '\x7b' :: r =>
      match r.dropWhile (fun c => c != '\x7d') with
      | '\x7d' :: rest => some (r.takeWhile (fun c => c != '\x7d'), rest)
      | _ => none
    | _ => none
  else none

/-- The lazy `(?P<body>.*?)::=\s*\{(?P<parent>[^}]*)\}` scan: the body
is the shortest span after which the `::= { ... }` clause matches. -/
def bodyToColEqBrace : Nat → List Char → List Char →
    Option (List Char × List Char × List Char)
  | 0, _, _ => none
  | fuel + 1, acc, cs =>
    match tryColEqBrace cs with
    | some (inside, rest) => some (acc.reverse, inside, rest)
    | none =>
      match cs with
      | [] => none
      | c :: cs' => bodyToColEqBrace fuel (c :: acc) cs'

/-- Matcher for `(?ms)^\s*(?P<name>[A-Za-z][\w\-]*)\s+KW\s+
(?P<body>.*?)::=\s*\{(?P<parent>[^}]*)\}` — the shared shape of
`RE_OBJTYPE`, `RE_OBJIDENTITY`, `RE_NOTIFICATION`, `RE_OBJECT_GROUP`,
`RE_MODULE_COMPLIANCE` and `RE_AGENT_CAPS`.  All greedy steps are
deterministic: identifier characters, whitespace and the literals are
pairwise disjoint at each boundary.  A match ends at `}`, so the rest
is never at a line start. -/
def matchKwDecl (kw : List Char) (cs : List Char) :
    Option ((List Char × List Char × List Char) × List Char × Bool) :=
  match cs.dropWhile pySpace with
  | [] => none
  | c :: r =>
    if !isAlphaC c then none
    else
      let nm := c :: r.takeWhile isWordDash
      match r.dropWhile isWordDash with
      | [] => none
      | w :: r1 =>
        if !pySpace w then none
        else
          let r2 := (w :: r1).dropWhile pySpace
          if !leadsWith kw r2 then none
          else
            match r2.drop kw.length with
            | [] => none
            | w2 :: r3 =>
              if !pySpace w2 then none
              else
                let r4 := (w2 :: r3).dropWhile pySpace
                match bodyToColEqBrace (r4.length + 1) [] r4 with
                | some (body, inside, rest) => some ((nm, body, inside), rest, false)
                | none => none

/-- Matcher for `RE_OID_ASSIGN = (?m)^\s*(?P<name>[A-Za-z][\w\-]*)\s+
OBJECT\s+IDENTIFIER\s*::=\s*\{(?P<body>[^}]*)\}`. -/
def matchOidAssign (cs : List Char) :
    Option ((List Char × List Char) × List Char × Bool) :=
  match cs.dropWhile pySpace with
  | [] => none
  | c :: r =>
    if !isAlphaC c then none
    else
      let nm := c :: r.takeWhile isWordDash
      match r.dropWhile isWordDash with
      | [] => none
      | w :: r1 =>
        if !pySpace w then none
        else
          let r2 := (w :: r1).dropWhile pySpace
          if !leadsWith "OBJECT".data r2 then none
          else
            match r2.drop 6 with
            | [] => none
            | w2 :: r3 =>
              if !pySpace w2 then none
              else
                let r4 := (w2 :: r3).dropWhile pySpace
                if !leadsWith "IDENTIFIER".data r4 then none
                else
                  match tryColEqBrace ((r4.drop 10).dropWhile pySpace) with
                  | some (inside, rest) => some ((nm, inside), rest, false)
                  | none => none

/-- Matcher for `RE_SEQUENCE = (?ms)^\s*(?P<name>[A-Za-z][\w\-]*)\s*
::=\s*SEQUENCE\s*\{(?P<body>[^}]*)\}`. -/
def matchSequenceDecl (cs : List Char) :
    Option ((List Char × List Char) × List Char × Bool) :=
  match cs.dropWhile pySpace with
  | [] => none
  | c :: r =>
    if !isAlphaC c then none
    else
      let nm := c :: r.takeWhile isWordDash
      let r2 := (r.dropWhile isWordDash).dropWhile pySpace
      if !leadsWith [':', ':', '='] r2 then none
      else
        let r3 := (r2.drop 3).dropWhile pySpace
        if !leadsWith "SEQUENCE".data r3 then none
        else
          match (r3.drop 8).dropWhile pySpace with
          | '\x7b' :: r4 =>
            match r4.dropWhile (fun x => x != '\x7d') with
            | '\x7d' :: rest =>
              some ((nm, r4.takeWhile (fun x => x != '\x7d')), rest, false)
            | _ => none
          | _ => none

/-- The lookahead `(?=^\s*[A-Za-z][\w\-]*\s*::=)` of
`RE_TEXTUAL_CONVENTION`, checked at a line-start position. -/
def tcLookahead (cs : List Char) : Bool :=
  match cs.dropWhile pySpace with
  | c :: r =>
    isAlphaC c && leadsWith [':', ':', '='] ((r.dropWhile isWordDash).dropWhile pySpace)
  | [] => false

/-- The lazy body of `RE_TEXTUAL_CONVENTION`: shortest span ending at a
line start satisfying the lookahead, or at the end of the text
(`\Z`).  `prevNL` tracks whether the previous character was a newline
(the `(?m)^` test).  Returns the body, the rest, and whether the rest
is at a line start. -/
def tcBody : Nat → Bool → List Char → List Char →
    (List Char × List Char × Bool)
  | 0, prevNL, acc, cs => (acc.reverse, cs, prevNL)
  | _ + 1, _, acc, [] => (acc.reverse, [], false)
  | fuel + 1, prevNL, acc, c :: cs =>
    if prevNL && tcLookahead (c :: cs) then (acc.reverse, c :: cs, true)
    else tcBody fuel (c == '\n') (c :: acc) cs

/-- Matcher for `RE_TEXTUAL_CONVENTION = (?ms)^\s*(?P<name>
[A-Za-z][\w\-]*)\s*::=\s*TEXTUAL-CONVENTION\s*(?P<body>.*?)
(?=^\s*[A-Za-z][\w\-]*\s*::=|\Z)`.  The `\s*` before the body is
greedy, so the lookahead is only consulted from the body start on; the
line-start status of the body start is whether the last consumed
whitespace character was a newline. -/
def matchTcDecl (cs : List Char) :
    Option ((List Char × List Char) × List Char × Bool) :=
  match cs.dropWhile pySpace with
  | [] => none
  | c :: r =>
    if !isAlphaC c then none
    else
      let nm := c :: r.takeWhile isWordDash
      let r2 := (r.dropWhile isWordDash).dropWhile pySpace
      if !leadsWith [':', ':', '='] r2 then none
      else
        let r3 := (r2.drop 3).dropWhile pySpace
        if !leadsWith "TEXTUAL-CONVENTION".data r3 then none
        else
          let afterKw := r3.drop 18
          let wsRun := afterKw.takeWhile pySpace
          let b0 := afterKw.dropWhile pySpace
          let startNL := match wsRun.getLast? with
            | some lc => lc == '\n'
            | none => false
          let (body, rest, ls) := tcBody (b0.length + 1) startNL [] b0
          some ((nm, body), rest, ls)

/-- Matcher for `RE_HEADER = ^\s*([A-Za-z][A-Za-z0-9\-._]*)\s+
DEFINITIONS\s*::=\s*BEGIN` with `re.M`. -/
def matchHeader (cs : List Char) :
    Option (List Char × List Char × Bool) :=
  match cs.dropWhile pySpace with
  | [] => none
  | c :: r =>
    if !isAlphaC c then none
    else
      let nm := c :: r.takeWhile isHeaderIdent
      match r.dropWhile isHeaderIdent with
      | [] => none
      | w :: r1 =>
        if !pySpace w then none
        else
          let r2 := (w :: r1).dropWhile pySpace
          if !leadsWith "DEFINITIONS".data r2 then none
          else
            let r3 := (r2.drop 11).dropWhile pySpace
            if !leadsWith [':', ':', '='] r3 then none
            else
              let r4 := (r3.drop 3).dropWhile pySpace
              if !leadsWith "BEGIN".data r4 then none
              else some (nm, r4.drop 5, false)

/-- `find_module_name` (mib_browser.py:1066-1068): the first `RE_HEADER`
match. -/
def find_module_name (src : List Char) : Option String :=
  match scanAll matchHeader src with
  | [] => none
  | nm :: _ => some ⟨nm⟩

example : find_module_name "TEST-MIB DEFINITIONS ::= BEGIN\nEND".data = some "TEST-MIB" := by decide
example : (scanAll matchOidAssign "internet OBJECT IDENTIFIER ::= \x7b iso 3 6 1 \x7d\n".data)
    = [("internet".data, " iso 3 6 1 ".data)] := by decide

/-! ## Node assembly: `parse_mib_text` (mib_browser.py:1151-1344)

Only the node-building portion is embedded (`moduleName`, the
`sym2oid` pass and the `nodes` dict).  The `meta` block, the structured
IMPORTS dict and the MODULE-IDENTITY extraction are separate scans of
the same source text that neither read nor write `sym2oid`/`nodes`, so
they cannot affect any node, and no claim is about them. -/

structure MNode where
  name : String
  oid : String
  symOid : String
  klass : String
  synText : String
  descr : String
  enums : List (String × String)
deriving Repr, DecidableEq

/-- Python `dict.setdefault(k, v)`. -/
def dictSetDefault {β : Type} (k : String) (v : β) : List (String × β) → List (String × β)
  | [] => [(k, v)]
  | (k', v') :: t => if k' == k then (k', v') :: t else (k', v') :: dictSetDefault k v t

/-- Generic in-place dict write for node dicts. -/
def dictSetN {β : Type} (k : String) (v : β) : List (String × β) → List (String × β)
  | [] => [(k, v)]
  | (k', v') :: t => if k' == k then (k, v) :: t else (k', v') :: dictSetN k v t

/-- Mutable state of the node loops: the `sym2oid` dict and the `nodes`
dict. -/
structure PState where
  sym2oid : List (String × String)
  nodes : List (String × MNode)
deriving Repr, DecidableEq

/-- The `sym_oid` display string built in `add_node`:
`re.sub(r"\s+", " ", body.strip()).replace(",", " ")`, stripped, split
on single spaces, joined with dots. -/
def symDisplay (parentBody : String) : String :=
  let sd0 := List.intercalate [' '] (pySplitWs parentBody.data)
  let sd1 := pyStrip (replaceSeq [','] [' '] sd0)
  ⟨List.intercalate ['.'] ((splitOnC ' ' sd1).filter (fun t => !t.isEmpty))⟩

/-- `add_node` (mib_browser.py:1191-1209).  Fails (propagating the
`IndexError` of `_resolve_braced_oid`) exactly when the resolver does. -/
def add_node (st : PState) (name : String) (parentBody : String)
    (klass : String) (synT : String) (descT : String) : Option PState :=
  match resolve_braced_oid parentBody st.sym2oid with
  | none => none
  | some oid =>
    let node : MNode :=
      { name := name, oid := oid, symOid := symDisplay parentBody,
        klass := klass, synText := synT, descr := ⟨pyStrip descT.data⟩,
        enums := extract_enums_from_syntax synT }
    let sym2' := if isDottedNum oid.data then dictSet name oid st.sym2oid else st.sym2oid
    some { sym2oid := sym2', nodes := dictSetN name node st.nodes }

/-- A plain `OBJECT IDENTIFIER` node as built by the `setdefault` loops
(mib_browser.py:1227-1241). -/
def plainOidNode (name oid : String) : MNode :=
  { name := name, oid := oid, symOid := "", klass := "OBJECT IDENTIFIER",
    synText := "", descr := "", enums := [] }

/-- Result of the node-building portion of `parse_mib_text`. -/
structure PDoc where
  moduleName : String
  nodes : List (String × MNode)
deriving Repr, DecidableEq

def parse_mib_text_nodes (text : String) : Option PDoc := do
  let src := stripCommentsL text.data
  -- sym2oid from the RE_OID_ASSIGN loop (lines 1184-1188)
  let sym0 ← (scanAll matchOidAssign src).foldlM (fun m nb => do
    let oid ← resolve_braced_oid ⟨nb.2⟩ m
    pure (if oid == "" then m else dictSet ⟨nb.1⟩ oid m)) ([] : List (String × String))
  let st0 : PState := { sym2oid := sym0, nodes := [] }
  -- OBJECT-IDENTITY loop (lines 1211-1214)
  let st1 ← (scanAll (matchKwDecl "OBJECT-IDENTITY".data) src).foldlM (fun st d =>
    add_node st ⟨d.1⟩ ⟨d.2.2⟩ "OBJECT-IDENTITY" ""
      (extract_field ⟨d.2.1⟩ "DESCRIPTION")) st0
  -- OBJECT-TYPE loop (lines 1216-1220)
  let st2 ← (scanAll (matchKwDecl "OBJECT-TYPE".data) src).foldlM (fun st d =>
    add_node st ⟨d.1⟩ ⟨d.2.2⟩ "OBJECT-TYPE"
      (extract_field ⟨d.2.1⟩ "SYNTAX")
      (extract_field ⟨d.2.1⟩ "DESCRIPTION")) st1
  -- NOTIFICATION-TYPE loop (lines 1222-1225)
  let st3 ← (scanAll (matchKwDecl "NOTIFICATION-TYPE".data) src).foldlM (fun st d =>
    add_node st ⟨d.1⟩ ⟨d.2.2⟩ "NOTIFICATION-TYPE" ""
      (extract_field ⟨d.2.1⟩ "DESCRIPTION")) st2
  -- the two identical setdefault loops over sym2oid (lines 1227-1241)
  let ns4 := st3.sym2oid.foldl (fun ns kv => dictSetDefault kv.1 (plainOidNode kv.1 kv.2) ns) st3.nodes
  let ns5 := st3.sym2oid.foldl (fun ns kv => dictSetDefault kv.1 (plainOidNode kv.1 kv.2) ns) ns4
  let st5 : PState := { sym2oid := st3.sym2oid, nodes := ns5 }
  -- TEXTUAL-CONVENTION loop (lines 1244-1263)
  let st6 ← (scanAll matchTcDecl src).foldlM (fun st d => do
    let body : String := ⟨d.2⟩
    let status := extract_field body "STATUS"
    -- the source computes `_extract_field(body, "DISPLAY-HINT") or
    -- _extract_field(body, "DISPLAY-HINT")`: both operands are the same
    -- call, so the truthiness chain is the plain call
    let disp := extract_field body "DISPLAY-HINT"
    let desc := extract_field body "DESCRIPTION"
    let synT := extract_field body "SYNTAX"
    let synShow := if disp == "" then synT
      else synT ++ "  [DISPLAY-HINT \"" ++ disp ++ "\"]"
    add_node st ⟨d.1⟩ ""
      ("TEXTUAL-CONVENTION" ++ (if status == "" then "" else " (" ++ status ++ ")"))
      synShow desc) st5
  -- SEQUENCE loop (lines 1265-1277)
  let st7 ← (scanAll matchSequenceDecl src).foldlM (fun st d => do
    let body := pyStrip d.2
    let members := (splitLinesPy body).filterMap (fun ln =>
      if (pyStrip ln).isEmpty then none
      else some ((pyStrip ln).reverse.dropWhile (fun c => c == ',')).reverse)
    let desc : String := ⟨List.intercalate ['\n'] members⟩
    add_node st ⟨d.1⟩ "" "SEQUENCE" "SEQUENCE \x7b...\x7d" desc) st6
  -- OBJECT-GROUP loop (lines 1280-1292)
  let st8 ← (scanAll (matchKwDecl "OBJECT-GROUP".data) src).foldlM (fun st d => do
    let body : String := ⟨d.2.1⟩
    let status := extract_field body "STATUS"
    let desc := extract_field body "DESCRIPTION"
    let objs := extract_list_in_braces body "OBJECTS"
    let synT := "OBJECTS \x7b " ++ String.intercalate ", " objs ++ " \x7d"
    add_node st ⟨d.1⟩ ⟨d.2.2⟩
      ("OBJECT-GROUP" ++ (if status == "" then "" else " (" ++ status ++ ")"))
      synT desc) st7
  -- MODULE-COMPLIANCE loop (lines 1295-1311)
  let st9 ← (scanAll (matchKwDecl "MODULE-COMPLIANCE".data) src).foldlM (fun st d => do
    let body : String := ⟨d.2.1⟩
    let status := extract_field body "STATUS"
    let desc := extract_field body "DESCRIPTION"
    let mand := extract_list_in_braces body "MANDATORY-GROUPS"
    let optGroups := extract_list_in_braces body "GROUP"
    let syn0 := "MANDATORY-GROUPS \x7b " ++ String.intercalate ", " mand ++ " \x7d"
    let synT := if optGroups.isEmpty then syn0
      else syn0 ++ " ; GROUP " ++ String.intercalate ", " optGroups
    add_node st ⟨d.1⟩ ⟨d.2.2⟩
      ("MODULE-COMPLIANCE" ++ (if status == "" then "" else " (" ++ status ++ ")"))
      synT desc) st8
  -- AGENT-CAPABILITIES loop (lines 1314-1330)
  let st10 ← (scanAll (matchKwDecl "AGENT-CAPABILITIES".data) src).foldlM (fun st d => do
    let body : String := ⟨d.2.1⟩
    let status := extract_field body "STATUS"
    let desc := extract_field body "DESCRIPTION"
    let prod := extract_field body "PRODUCT-RELEASE"
    let supports := findSupports body
    let pieces := [if prod == "" then "" else "PRODUCT-RELEASE \"" ++ prod ++ "\"",
      if supports.isEmpty then "" else "SUPPORTS " ++ String.intercalate ", " supports]
    let synT := String.intercalate "; " (pieces.filter (fun s => !(s == "")))
    add_node st ⟨d.1⟩ ⟨d.2.2⟩
      ("AGENT-CAPABILITIES" ++ (if status == "" then "" else " (" ++ status ++ ")"))
      synT desc) st9
  let module := match find_module_name src with
    | some n => if n == "" then "(unknown-module)" else n
    | none => "(unknown-module)"
  pure { moduleName := module, nodes := st10.nodes }

/-- Oid of a named node in a parse result (for stating claims). -/
def nodeOid (doc : Option PDoc) (name : String) : Option String :=
  match doc with
  | some d => (List.lookup name d.nodes).map (fun n => n.oid)
  | none => none

/-- The end-to-end example module of the specification (§8): `internet`,
then `mib-2`, then `sysDescr OBJECT-TYPE ... ::= { mib-2 1 1 }`. -/
def specExampleModule : String :=
  "TEST-MIB DEFINITIONS ::= BEGIN\n" ++
  "internet OBJECT IDENTIFIER ::= \x7b iso 3 6 1 \x7d\n" ++
  "mib-2 OBJECT IDENTIFIER ::= \x7b internet 2 1 \x7d\n" ++
  "sysDescr OBJECT-TYPE\n" ++
  "    SYNTAX DisplayString\n" ++
  "    MAX-ACCESS read-only\n" ++
  "    STATUS current\n" ++
  "    DESCRIPTION \"desc\"\n" ++
  "    ::= \x7b mib-2 1 1 \x7d\n" ++
  "END\n"

set_option maxRecDepth 20000 in
example : nodeOid (parse_mib_text_nodes specExampleModule) "sysDescr" = some "1.3.6.1.2.1.1.1" := by decide

set_option maxRecDepth 20000 in
example : nodeOid (parse_mib_text_nodes specExampleModule) "mib-2" = some "1.3.6.1.2.1" := by decide

/-! ## The `SmiV2Parser` variant (parser.py)

The embedding covers `__init__`'s preprocessing, `_get_module_name`,
`_pass1_discover_nodes`, `_parse_oid_def` and `_pass2_resolve_oids`.
`_get_imports`, `_pass3_build_tree` and the per-node
description/syntax helpers neither read nor write the oid data the
claims are about, and are not embedded. -/

namespace SmiV2

/-- `SmiV2Parser.__init__` (parser.py:6-8): strip `--` comments
(`re.sub(r'--.*', '', text)`, same pattern as `RE_LINE_COMMENT` since
`.` does not cross a newline), then remove `-\n` pairs, then remove
`\r`. -/
def preprocess (text : String) : List Char :=
  replaceSeq ['\r'] [] (replaceSeq ['-', '\n'] [] (stripLC text.data))

/-- One position of `re.search(r'([a-zA-Z0-9-]+)\s+DEFINITIONS\s*::=
\s*BEGIN', raw)` (parser.py:33).  Deterministic: the identifier class,
whitespace and the literals are disjoint at each greedy boundary. -/
def headerMatchAt (cs : List Char) : Option (List Char) :=
  match cs with
  | [] => none
  | c :: r =>
    if !isIdentPy c then none
    else
      let nm := c :: r.takeWhile isIdentPy
      match r.dropWhile isIdentPy with
      | [] => none
      | w :: r1 =>
        if !pySpace w then none
        else
          let r2 := (w :: r1).dropWhile pySpace
          if !leadsWith "DEFINITIONS".data r2 then none
          else
            let r3 := (r2.drop 11).dropWhile pySpace
            if !leadsWith [':', ':', '='] r3 then none
            else
              let r4 := (r3.drop 3).dropWhile pySpace
              if !leadsWith "BEGIN".data r4 then none
              else some nm

/-- `re.search`: the leftmost matching position. -/
def searchHeaderName : List Char → Option (List Char)
  | [] => none
  | c :: cs =>
    match headerMatchAt (c :: cs) with
    | some nm => some nm
    | none => searchHeaderName cs

/-- A declaration as discovered by `_pass1_discover_nodes`, with the
fields the resolver reads (`description`/`syntax`/`children` are
write-only there and omitted). -/
structure PNode where
  name : String
  klass : String
  oidDef : String
  oid : Option String
  symOid : Option String
deriving Repr, DecidableEq

/-- The keyword alternation of the pass-1 regex (parser.py:45-51), in
source order.  All alternatives are pairwise distinguishable (they
differ within their common prefix), so at most one can match at a given
position. -/
def kwList : List (List Char) :=
  ["OBJECT-TYPE".data, "OBJECT IDENTIFIER".data, "MODULE-IDENTITY".data,
   "OBJECT-GROUP".data, "NOTIFICATION-TYPE".data, "TRAP-TYPE".data,
   "TEXTUAL-CONVENTION".data]

/-- One position of the pass-1 pattern `([a-zA-Z0-9-]+)\s+(KW-alt)\s+
(.*?)::=\s*\{(.*?)\}` (with `re.DOTALL`, no anchor).  Returns
`(name, keyword, body, oid_def)` and the rest after `}`. -/
def pass1MatchAt (cs : List Char) :
    Option ((List Char × List Char × List Char × List Char) × List Char) :=
  match cs with
  | [] => none
  | c :: r =>
    if !isIdentPy c then none
    else
      let nm := c :: r.takeWhile isIdentPy
      match r.dropWhile isIdentPy with
      | [] => none
      | w :: r1 =>
        if !pySpace w then none
        else
          let r2 := (w :: r1).dropWhile pySpace
          match kwList.find? (fun kw => leadsWith kw r2) with
          | none => none
          | some kw =>
            match r2.drop kw.length with
            | [] => none
            | w2 :: r3 =>
              if !pySpace w2 then none
              else
                let r4 := (w2 :: r3).dropWhile pySpace
                match bodyToColEqBrace (r4.length + 1) [] r4 with
                | some (body, inside, rest) => some ((nm, kw, body, inside), rest)
                | none => none

/-- `finditer` for the pass-1 pattern: leftmost, non-overlapping. -/
def scanPass1Aux : Nat → List Char →
    List ((List Char × List Char × List Char × List Char))
  | 0, _ => []
  | _ + 1, [] => []
  | fuel + 1, c :: cs =>
    match pass1MatchAt (c :: cs) with
    | some (d, rest) => d :: scanPass1Aux fuel rest
    | none => scanPass1Aux fuel cs

/-- In-place update of the node list keyed by name (Python dict
`self.nodes[name] = {...}` keeps the position of the first insertion). -/
def insertNode (n : PNode) : List PNode → List PNode
  | [] => [n]
  | m :: t => if m.name == n.name then n :: t else m :: insertNode n t

/-- `_pass1_discover_nodes` (parser.py:44-66): every match, skipping
`MACRO`, becomes a node with `klass.replace(' ', '-')` and the stripped
`oid_def`. -/
def pass1_discover_nodes (raw : List Char) : List PNode :=
  (scanPass1Aux raw.length raw).foldl (fun ns d =>
    if (⟨d.1⟩ : String) == "MACRO" then ns
    else
      insertNode
        { name := ⟨d.1⟩,
          klass := ⟨replaceSeq [' '] ['-'] d.2.1⟩,
          oidDef := ⟨pyStrip d.2.2.2⟩,
          oid := none, symOid := none } ns) []

/-- `_parse_oid_def` (parser.py:109-115).  `str.split()` pieces are
never empty, so a returned parent name is never the empty string. -/
def parse_oid_def (s : String) : Option (String × String) :=
  match pySplitWs s.data with
  | [a, b] => some ((⟨a⟩ : String), (⟨b⟩ : String))
  | [a] => if pyIsDigit a then some ("iso", (⟨a⟩ : String)) else none
  | _ => none

/-- `oid_map.get(parent_name)` with the `if not parent_oid` fallback to
`self.nodes.get(parent_name)['oid']` (parser.py:79-83). -/
def findNodeOid (ns : List PNode) (k : String) : Option String :=
  match ns.find? (fun n => n.name == k) with
  | some n => n.oid
  | none => none

def parentLookup (ns : List PNode) (m : List (String × String)) (p : String) :
    Option String :=
  match truthyOpt (List.lookup p m) with
  | some v => some v
  | none => findNodeOid ns p

/-- The per-node attempt of one pass (parser.py:73-89): fires iff the
node is unresolved, its `oid_def` parses, the parent oid is available
and truthy, and the sub-identifier is all digits.  Returns
`(parent_name, sub_id, new_oid)`. -/
def resolveStep (ns : List PNode) (m : List (String × String)) (n : PNode) :
    Option (String × String × String) :=
  if n.oid.isSome then none
  else
    match parse_oid_def n.oidDef with
    | none => none
    | some (p, sub) =>
      match truthyOpt (parentLookup ns m p) with
      | some po =>
        if pyIsDigit sub.data then some (p, sub, po ++ "." ++ sub) else none
      | none => none

/-- The in-place node update of a successful resolution: `node['oid']`
and `node['sym_oid']` are written (parser.py:86-87). -/
def resolvedNode (n : PNode) (p sub newOid : String) : PNode :=
  { name := n.name, klass := n.klass, oidDef := n.oidDef,
    oid := some newOid,
    symOid := some ("\x7b" ++ p ++ " " ++ sub ++ "\x7d") }

/-- One full pass of `_pass2_resolve_oids`: iterate the nodes in
order, resolving in place (later nodes of the same pass see earlier
resolutions through both the node list and `oid_map`). -/
def runPassAux : List PNode → List PNode → List (String × String) → Bool →
    List PNode × List (String × String) × Bool
  | prev, [], m, prog => (prev, m, prog)
  | prev, n :: rs, m, prog =>
    match resolveStep (prev ++ n :: rs) m n with
    | none => runPassAux (prev ++ [n]) rs m prog
    | some (p, sub, newOid) =>
      runPassAux (prev ++ [resolvedNode n p sub newOid]) rs (dictSet n.name newOid m) true

def runPass (ns : List PNode) (m : List (String × String)) :
    List PNode × List (String × String) × Bool :=
  runPassAux [] ns m false

/-- The `while resolved_in_pass` loop, fuel-driven.  The C5 theorem
shows fuel `ns.length + 1` reaches the fixed point, so this equals the
unbounded Python loop. -/
def resolveLoop : Nat → List PNode → List (String × String) →
    List PNode × List (String × String)
  | 0, ns, m => (ns, m)
  | fuel + 1, ns, m =>
    match runPass ns m with
    | (ns', m', true) => resolveLoop fuel ns' m'
    | (ns', m', false) => (ns', m')

/-- `_pass2_resolve_oids` (parser.py:68-89): seed `{'iso': '1'}`,
iterate passes to the fixed point. -/
def pass2_resolve_oids (ns : List PNode) :
    List PNode × List (String × String) :=
  resolveLoop (ns.length + 1) ns [("iso", "1")]

/-- `SmiV2Parser.parse` (parser.py:14-30), restricted to the module
name and the resolved nodes (`_get_imports` and `_pass3_build_tree` do
not touch them). -/
structure SmiResult where
  moduleName : String
  nodes : List PNode
  oidMap : List (String × String)
deriving Repr, DecidableEq

def parse (text : String) : Option SmiResult :=
  let raw := preprocess text
  match searchHeaderName raw with
  | none => none
  | some nm =>
    if (⟨nm⟩ : String) == "" then none
    else
      let ns := pass1_discover_nodes raw
      let r := pass2_resolve_oids ns
      some { moduleName := ⟨nm⟩, nodes := r.1, oidMap := r.2 }

example : (parse "M2 DEFINITIONS ::= BEGIN\nfoo OBJECT IDENTIFIER ::= \x7b iso 3 \x7d\nbar OBJECT IDENTIFIER ::= \x7b foo 6 \x7d\nEND").map
    (fun r => r.oidMap) = some [("iso", "1"), ("foo", "1.3"), ("bar", "1.3.6")] := by decide

example : parse "-- no module here" = none := by decide

end SmiV2

/-! ## Tree and Index Assembler: `flatten_nodes` (mib_browser.py:1542-1566) -/

/-- Python `int(str)` (ASCII): optional surrounding whitespace, an
optional sign, then digits with single underscores allowed between
digits. -/
def digitsUnderscoreAux : List Char → Bool
  | [] => true
  | '_' :: c :: cs => isDigitC c && digitsUnderscoreAux cs
  | '_' :: [] => false
  | c :: cs => isDigitC c && digitsUnderscoreAux cs

def digitsUnderscore : List Char → Bool
  | [] => false
  | c :: cs => isDigitC c && digitsUnderscoreAux cs

def pyInt (cs : List Char) : Option Int :=
  let t := pyStrip cs
  let sgnDs : Int × List Char := match t with
    | '+' :: r => (1, r)
    | '-' :: r => (-1, r)
    | r => (1, r)
  if digitsUnderscore sgnDs.2 then
    some (sgnDs.1 * Int.ofNat (digitsToNat (sgnDs.2.filter (fun c => c != '_'))))
  else none

/-- `_oid_key` (mib_browser.py:1558-1564): the empty (falsy) oid keys as
`[10**9]`; otherwise each dot-segment is its `int(...)` value, or the
sentinel `10**9` where `int` raises. -/
def oidKey (oid : String) : List Int :=
  if oid == "" then [1000000000]
  else
    (splitOnC '.' oid.data).map (fun p =>
      match pyInt p with
      | some v => v
      | none => 1000000000)

/-- Python list comparison on `List Int` (strict, lexicographic, a
proper prefix is smaller). -/
def lexLtInt : List Int → List Int → Bool
  | [], [] => false
  | [], _ :: _ => true
  | _ :: _, [] => false
  | a :: as, b :: bs => if a < b then true else if b < a then false else lexLtInt as bs

/-- Python string comparison, by code point. -/
def lexLtChar : List Char → List Char → Bool
  | [], [] => false
  | [], _ :: _ => true
  | _ :: _, [] => false
  | a :: as, b :: bs =>
    if a.toNat < b.toNat then true
    else if b.toNat < a.toNat then false
    else lexLtChar as bs

/-- One row of the flat list. -/
structure FlatNode where
  module : String
  name : String
  oid : String
  symOid : String
  klass : String
  synText : String
  descr : String
  enums : List (String × String)
deriving Repr, DecidableEq

/-- The sort key comparison `(_oid_key(n), n["name"])` of
`out.sort(key=...)`: Python tuple order. -/
def keyLt (a b : FlatNode) : Bool :=
  if lexLtInt (oidKey a.oid) (oidKey b.oid) then true
  else if lexLtInt (oidKey b.oid) (oidKey a.oid) then false
  else lexLtChar a.name.data b.name.data

/-- Stable insertion: a new element goes after every element it is not
strictly below.  Folding this over the input is extensionally Python's
`list.sort` (a stable sort): both produce the unique permutation that
is sorted under the total preorder of `keyLt` and keeps equal-key
elements in input order. -/
def insertA (x : FlatNode) : List FlatNode → List FlatNode
  | [] => [x]
  | y :: ys => if keyLt x y then x :: y :: ys else y :: insertA x ys

def pySortNodes (l : List FlatNode) : List FlatNode :=
  l.foldl (fun acc x => insertA x acc) []

/-- `flatten_nodes` (mib_browser.py:1542-1566).  The `isinstance`
guards of the source are vacuous in the typed model; `val.get("name")
or key` is the name field unless it is falsy (empty). -/
def flatten_nodes (modName : String) (doc : PDoc) : List FlatNode :=
  let out := doc.nodes.map (fun kv =>
    { module := modName,
      name := if kv.2.name == "" then kv.1 else kv.2.name,
      oid := kv.2.oid,
      symOid := kv.2.symOid,
      klass := kv.2.klass,
      synText := kv.2.synText,
      descr := ⟨pyStrip kv.2.descr.data⟩,
      enums := kv.2.enums : FlatNode })
  pySortNodes out

/-! ## Search: `search_all` (mib_browser.py:1653-1671) -/

/-- The haystack of one node: `" ".join([module, name, oid, sym_oid,
klass, syntax, description]).lower()`. -/
def hayOf (n : FlatNode) : List Char :=
  pyLower (List.intercalate [' ']
    [n.module.data, n.name.data, n.oid.data, n.symOid.data,
     n.klass.data, n.synText.data, n.descr.data])

/-- The inner `for n in flatten_nodes(...)` loop: append on match,
`break` as soon as the accumulated hits reach 200 (the break leaves
only this module's loop). -/
def searchModule (term : List Char) : List FlatNode → List FlatNode → List FlatNode
  | hits, [] => hits
  | hits, n :: rest =>
    let hits' := if containsSeq term (hayOf n) then hits ++ [n] else hits
    if 200 ≤ hits'.length then hits' else searchModule term hits' rest

/-- `search_all` (mib_browser.py:1653-1671) over a loaded module set
(`COMPILED`, modelled as ordered module/doc pairs). -/
def search_all (term : String) (compiled : List (String × PDoc)) : List FlatNode :=
  let t := pyLower (pyStrip term.data)
  if t.isEmpty then []
  else compiled.foldl (fun hits entry => searchModule t hits (flatten_nodes entry.1 entry.2)) []

example : (flatten_nodes "M"
    { moduleName := "M",
      nodes := [("b", plainOidNode "b" "2.3"), ("a", plainOidNode "a" "1.z")] }).map
    (fun n => n.name) = ["a", "b"] := by decide

/-- Two modules that overflow the 200 cap: module `M1` holds 200
matching nodes, module `M2` one more. -/
def bigDoc1 : PDoc :=
  { moduleName := "M1",
    nodes := (List.range 200).map (fun i =>
      ("n" ++ Nat.repr i, plainOidNode ("n" ++ Nat.repr i) (Nat.repr (1000 - i)))) }

def bigDoc2 : PDoc :=
  { moduleName := "M2", nodes := [("x", plainOidNode "x" "9")] }

set_option maxRecDepth 40000 in
example : (search_all "n" [("M1", bigDoc1), ("M2", bigDoc2)]).length = 201 := by decide

/-! ## Proofs about comment stripping (claim C7) -/

/-- Truncation of one line at its first `--`: the specification's
wording of comment removal. -/
def takeTilDashDash : List Char → List Char
  | [] => []
  | c :: cs =>
    match cs with
    | [] => [c]
    | d :: _ =>
      if c == '-' && d == '-' then [] else c :: takeTilDashDash cs

/-- Comment stripping of a quote-free stretch as the specification
words it: split into lines, drop each line from its first `--` on. -/
def stripBetween (cs : List Char) : List Char :=
  List.intercalate ['\n'] ((splitOnC '\n' cs).map takeTilDashDash)

theorem splitOnC_ne_nil (sep : Char) (cs : List Char) : splitOnC sep cs ≠ [] := by
  cases cs with
  | nil => simp [splitOnC]
  | cons c cs =>
    by_cases h : c = sep
    · simp [splitOnC, h]
    · have hb : (c == sep) = false := by simp [h]
      simp only [splitOnC, hb, Bool.false_eq_true, if_false]
      cases splitOnC sep cs <;> simp

theorem splitOnC_decomp (sep : Char) (cs : List Char) :
    splitOnC sep cs =
      match cs.dropWhile (fun c => !(c == sep)) with
      | [] => [cs]
      | _ :: r => cs.takeWhile (fun c => !(c == sep)) :: splitOnC sep r := by
  induction cs with
  | nil => rfl
  | cons c cs ih =>
    by_cases h : c = sep
    · subst h
      simp [splitOnC, List.dropWhile, List.takeWhile]
    · have hb : (c == sep) = false := by simp [h]
      have hdw : (c :: cs).dropWhile (fun c => !(c == sep)) =
          cs.dropWhile (fun c => !(c == sep)) := by
        simp [List.dropWhile, hb]
      have htw : (c :: cs).takeWhile (fun c => !(c == sep)) =
          c :: cs.takeWhile (fun c => !(c == sep)) := by
        simp [List.takeWhile, hb]
      have hu : splitOnC sep (c :: cs) =
          (match splitOnC sep cs with
           | [] => [[c]]
           | h :: t => (c :: h) :: t) := by
        simp [splitOnC, hb]
      rw [hu, ih, hdw, htw]
      cases hd : cs.dropWhile (fun c => !(c == sep)) with
      | nil => simp
      | cons a r => simp

theorem intercalate_cons_cons (sep : List Char) (x : List Char) (y : List Char)
    (t : List (List Char)) :
    List.intercalate sep (x :: y :: t) = x ++ sep ++ List.intercalate sep (y :: t) := by
  simp [List.intercalate, List.intersperse]

theorem intercalate_single (sep : List Char) (x : List Char) :
    List.intercalate sep [x] = x := by
  simp [List.intercalate, List.intersperse]

theorem intercalate_cons_head (sep : List Char) (c : Char) (x : List Char)
    (rest : List (List Char)) :
    List.intercalate sep ((c :: x) :: rest) = c :: List.intercalate sep (x :: rest) := by
  cases rest with
  | nil => rw [intercalate_single, intercalate_single]
  | cons y t => rw [intercalate_cons_cons, intercalate_cons_cons]; simp

theorem stripLCAux_true_eq (cs : List Char) :
    stripLCAux true cs =
      (match cs.dropWhile (fun c => !(c == '\n')) with
       | [] => ([] : List Char)
       | _ :: r => '\n' :: stripLCAux false r) := by
  induction cs with
  | nil => rfl
  | cons c cs ih =>
    by_cases h : c = '\n'
    · subst h
      simp [stripLCAux, List.dropWhile]
    · have hb : (c == '\n') = false := by simp [h]
      simp [stripLCAux, List.dropWhile, hb, ih]

theorem stripBetween_nil : stripBetween [] = [] := by decide

theorem stripBetween_newline (cs : List Char) :
    stripBetween ('\n' :: cs) = '\n' :: stripBetween cs := by
  unfold stripBetween
  have h1 : splitOnC '\n' ('\n' :: cs) = [] :: splitOnC '\n' cs := by
    simp [splitOnC]
  rw [h1]
  cases hp : splitOnC '\n' cs with
  | nil => exact absurd hp (splitOnC_ne_nil _ _)
  | cons p t =>
    simp only [List.map_cons, takeTilDashDash]
    rw [intercalate_cons_cons]
    simp

theorem splitOnC_head (sep : Char) (cs : List Char) :
    ∃ t, splitOnC sep cs = cs.takeWhile (fun x => !(x == sep)) :: t := by
  rw [splitOnC_decomp]
  cases hd : cs.dropWhile (fun c => !(c == sep)) with
  | nil =>
    refine ⟨[], ?_⟩
    have h2 := List.takeWhile_append_dropWhile (p := fun x => !(x == sep)) (l := cs)
    rw [hd, List.append_nil] at h2
    simp [h2]
  | cons a r => exact ⟨splitOnC sep r, rfl⟩

theorem stripBetween_cons (c : Char) (cs : List Char) (hnl : c ≠ '\n')
    (hdd : ¬(c = '-' ∧ cs.head? = some '-')) :
    stripBetween (c :: cs) = c :: stripBetween cs := by
  unfold stripBetween
  obtain ⟨t, ht⟩ := splitOnC_head '\n' cs
  have hb : (c == '\n') = false := by simp [hnl]
  have h1 : splitOnC '\n' (c :: cs) = (c :: cs.takeWhile (fun x => !(x == '\n'))) :: t := by
    simp only [splitOnC, hb, Bool.false_eq_true, if_false]
    rw [ht]
  rw [h1, ht]
  simp only [List.map_cons]
  have hh : takeTilDashDash (c :: cs.takeWhile (fun x => !(x == '\n'))) =
      c :: takeTilDashDash (cs.takeWhile (fun x => !(x == '\n'))) := by
    cases cs with
    | nil => rfl
    | cons d cs' =>
      by_cases hd : d = '\n'
      · subst hd
        simp [List.takeWhile, takeTilDashDash]
      · have hbd : (d == '\n') = false := by simp [hd]
        have htw : (d :: cs').takeWhile (fun x => !(x == '\n')) =
            d :: cs'.takeWhile (fun x => !(x == '\n')) := by
          simp [List.takeWhile, hbd]
        rw [htw]
        have hcd : (c == '-' && d == '-') = false := by
          by_cases hc : c = '-'
          · have hdm : ¬ d = '-' := fun hdm => hdd ⟨hc, by simp [hdm]⟩
            simp [hdm]
          · simp [hc]
        simp [takeTilDashDash, hcd]
  rw [hh]
  exact intercalate_cons_head _ _ _ _

theorem stripBetween_dd (cs : List Char) :
    stripBetween ('-' :: '-' :: cs) =
      (match cs.dropWhile (fun c => !(c == '\n')) with
       | [] => ([] : List Char)
       | _ :: r => '\n' :: stripBetween r) := by
  unfold stripBetween
  rw [splitOnC_decomp]
  have hdw : ('-' :: '-' :: cs).dropWhile (fun c => !(c == '\n')) =
      cs.dropWhile (fun c => !(c == '\n')) := by
    simp [List.dropWhile]
  rw [hdw]
  cases hd : cs.dropWhile (fun c => !(c == '\n')) with
  | nil =>
    have htt : takeTilDashDash ('-' :: '-' :: cs) = [] := by simp [takeTilDashDash]
    simp only [List.map_cons, List.map_nil, htt]
    rw [intercalate_single]
  | cons a r =>
    have htt : takeTilDashDash (('-' :: '-' :: cs).takeWhile (fun c => !(c == '\n'))) = [] := by
      have d1 : (('-' : Char) == '\n') = false := by decide
      simp [List.takeWhile, d1, takeTilDashDash]
    simp only [List.map_cons, htt]
    cases hmt : (splitOnC '\n' r).map takeTilDashDash with
    | nil =>
      have : splitOnC '\n' r = [] := by
        cases hq : splitOnC '\n' r with
        | nil => rfl
        | cons q qt => rw [hq] at hmt; simp at hmt
      exact absurd this (splitOnC_ne_nil _ _)
    | cons m mt =>
      rw [intercalate_cons_cons]
      simp

theorem stripLC_eq_stripBetween (cs : List Char) : stripLC cs = stripBetween cs := by
  suffices h : ∀ n (cs : List Char), cs.length = n → stripLC cs = stripBetween cs from
    h cs.length cs rfl
  intro n
  induction n using Nat.strong_induction_on with
  | _ n ih =>
    intro cs hn
    cases cs with
    | nil => rw [stripBetween_nil]; rfl
    | cons c cs' =>
      by_cases hnl : c = '\n'
      · subst hnl
        rw [stripBetween_newline]
        have h1 : stripLCAux false ('\n' :: cs') = '\n' :: stripLCAux false cs' := by
          cases cs' with
          | nil => rfl
          | cons d cs'' =>
            have hcd : (('\n' : Char) == '-') = false := by decide
            simp [stripLCAux, hcd]
        show stripLCAux false ('\n' :: cs') = _
        rw [h1]
        have hr : cs'.length < n := by simp at hn; omega
        rw [show stripLCAux false cs' = stripLC cs' from rfl, ih cs'.length hr cs' rfl]
      · by_cases hdd : c = '-' ∧ cs'.head? = some '-'
        · obtain ⟨hc, hh⟩ := hdd
          subst hc
          cases cs' with
          | nil => simp at hh
          | cons e cs'' =>
            have he : e = '-' := by simpa using hh
            subst he
            rw [stripBetween_dd]
            show stripLCAux false ('-' :: '-' :: cs'') = _
            have h1 : stripLCAux false ('-' :: '-' :: cs'') = stripLCAux true cs'' := by
              simp [stripLCAux]
            rw [h1, stripLCAux_true_eq]
            cases hd : cs''.dropWhile (fun c => !(c == '\n')) with
            | nil => rfl
            | cons a r =>
              have h2 : (a :: r).length ≤ cs''.length := by
                rw [← hd]; exact (List.dropWhile_sublist _).length_le
              have hr : r.length < n := by simp at hn h2; omega
              show '\n' :: stripLCAux false r = '\n' :: stripBetween r
              rw [show stripLCAux false r = stripLC r from rfl, ih r.length hr r rfl]
        · rw [stripBetween_cons c cs' hnl hdd]
          have h1 : stripLCAux false (c :: cs') = c :: stripLCAux false cs' := by
            cases cs' with
            | nil => rfl
            | cons d cs'' =>
              have hcd : (c == '-' && d == '-') = false := by
                by_cases hc : c = '-'
                · have hdm : ¬ d = '-' := fun hdm => hdd ⟨hc, by simp [hdm]⟩
                  simp [hdm]
                · simp [hc]
              simp [stripLCAux, hcd]
          show stripLCAux false (c :: cs') = _
          rw [h1]
          have hr : cs'.length < n := by simp at hn; omega
          rw [show stripLCAux false cs' = stripLC cs' from rfl, ih cs'.length hr cs' rfl]

theorem stripCommentsL_eq (cs : List Char) :
    stripCommentsL cs =
      ((splitQuotes cs).1.map (fun pq => stripLC pq.1 ++ pq.2)).flatten
        ++ stripLC (splitQuotes cs).2 := rfl

/-- Every complete quoted span identified by `RE_QUOTED` occurs
verbatim (contiguously) in the output of comment stripping. -/
theorem quoted_span_infix (cs : List Char) (pq : List Char × List Char)
    (hm : pq ∈ (splitQuotes cs).1) :
    ∃ u v, stripCommentsL cs = u ++ pq.2 ++ v := by
  obtain ⟨s1, s2, hseg⟩ := List.append_of_mem hm
  refine ⟨(s1.map (fun pq => stripLC pq.1 ++ pq.2)).flatten ++ stripLC pq.1,
    (s2.map (fun pq => stripLC pq.1 ++ pq.2)).flatten ++ stripLC (splitQuotes cs).2, ?_⟩
  rw [stripCommentsL_eq, hseg]
  simp [List.append_assoc]

/-! ## Generic scanning lemmas -/

theorem leadsWith_eq_append (pat cs : List Char) (h : leadsWith pat cs = true) :
    cs = pat ++ cs.drop pat.length := by
  induction pat generalizing cs with
  | nil => simp
  | cons a as ih =>
    cases cs with
    | nil => simp [leadsWith] at h
    | cons b bs =>
      simp only [leadsWith, Bool.and_eq_true] at h
      have hab : a = b := by simpa using h.1
      subst hab
      simpa using ih bs h.2

theorem leadsWith_self_append (a b : List Char) : leadsWith a (a ++ b) = true := by
  induction a with
  | nil => simp [leadsWith]
  | cons x xs ih => simpa [leadsWith] using ih

theorem takeWhile_all_append {α : Type} {p : α → Bool} (a b : List α)
    (ha : ∀ c ∈ a, p c = true) :
    (a ++ b).takeWhile p = a ++ b.takeWhile p := by
  induction a with
  | nil => simp
  | cons x xs ih =>
    have hx := ha x (by simp)
    simp only [List.cons_append, List.takeWhile, hx]
    exact congrArg (List.cons x) (ih (fun c hc => ha c (by simp [hc])))

theorem dropWhile_all_append {α : Type} {p : α → Bool} (a b : List α)
    (ha : ∀ c ∈ a, p c = true) :
    (a ++ b).dropWhile p = b.dropWhile p := by
  induction a with
  | nil => simp
  | cons x xs ih =>
    have hx := ha x (by simp)
    simp only [List.cons_append, List.dropWhile, hx]
    exact ih (fun c hc => ha c (by simp [hc]))

theorem takeWhile_stops {α : Type} {p : α → Bool} (a : List α) (d : α) (b : List α)
    (ha : ∀ c ∈ a, p c = true) (hd : p d = false) :
    (a ++ d :: b).takeWhile p = a := by
  rw [takeWhile_all_append a (d :: b) ha]
  simp [List.takeWhile, hd]

theorem dropWhile_stops {α : Type} {p : α → Bool} (a : List α) (d : α) (b : List α)
    (ha : ∀ c ∈ a, p c = true) (hd : p d = false) :
    (a ++ d :: b).dropWhile p = d :: b := by
  rw [dropWhile_all_append a (d :: b) ha]
  simp [List.dropWhile, hd]

theorem pySpace_not_identPy (c : Char) (h : pySpace c = true) : isIdentPy c = false := by
  simp only [pySpace, Bool.or_eq_true, beq_iff_eq] at h
  rcases h with ((((h | h) | h) | h) | h) | h <;> subst h <;> decide

theorem pySpace_not_headerIdent (c : Char) (h : pySpace c = true) : isHeaderIdent c = false := by
  simp only [pySpace, Bool.or_eq_true, beq_iff_eq] at h
  rcases h with ((((h | h) | h) | h) | h) | h <;> subst h <;> decide

/-! ## The module header (claim C2) -/

namespace SmiV2

/-- The claim's wording of "contains a `<ident> DEFINITIONS ::= BEGIN`
header", as a declarative decomposition: somewhere in the text an
identifier run is followed by whitespace, `DEFINITIONS`, optional
whitespace, `::=`, optional whitespace and `BEGIN`. -/
def HeaderSpec (cs : List Char) : Prop :=
  ∃ pre nm w1 w2 w3 rest,
    cs = pre ++ nm ++ w1 ++ "DEFINITIONS".data ++ w2 ++ [':', ':', '=']
      ++ w3 ++ "BEGIN".data ++ rest ∧
    nm ≠ [] ∧ (∀ c ∈ nm, isIdentPy c = true) ∧
    w1 ≠ [] ∧ (∀ c ∈ w1, pySpace c = true) ∧
    (∀ c ∈ w2, pySpace c = true) ∧ (∀ c ∈ w3, pySpace c = true)

theorem headerMatchAt_sound (cs : List Char) (nm : List Char)
    (h : headerMatchAt cs = some nm) : HeaderSpec cs := by
  match hcs : cs with
  | [] => simp [headerMatchAt] at h
  | c :: r =>
    unfold headerMatchAt at h
    by_cases hc : isIdentPy c
    · simp only [hc, Bool.not_true, Bool.false_eq_true, if_false] at h
      match hdw : r.dropWhile isIdentPy with
      | [] => rw [hdw] at h; simp at h
      | w :: r1 =>
        rw [hdw] at h
        simp only [] at h
        by_cases hw : pySpace w
        · simp only [hw, Bool.not_true, Bool.false_eq_true, if_false] at h
          set r2 := (w :: r1).dropWhile pySpace with hr2
          by_cases hdef : leadsWith "DEFINITIONS".data r2
          · simp only [hdef, Bool.not_true, Bool.false_eq_true, if_false] at h
            set r3 := (r2.drop 11).dropWhile pySpace with hr3
            by_cases hce : leadsWith [':', ':', '='] r3
            · simp only [hce, Bool.not_true, Bool.false_eq_true, if_false] at h
              set r4 := (r3.drop 3).dropWhile pySpace with hr4
              by_cases hbeg : leadsWith "BEGIN".data r4
              · refine ⟨[], c :: r.takeWhile isIdentPy,
                  (w :: r1).takeWhile pySpace,
                  (r2.drop 11).takeWhile pySpace,
                  (r3.drop 3).takeWhile pySpace,
                  r4.drop 5, ?_, by simp, ?_, ?_, ?_, ?_, ?_⟩
                · have e1 : r = r.takeWhile isIdentPy ++ (w :: r1) := by
                    rw [← hdw]; exact (List.takeWhile_append_dropWhile _ _).symm
                  have e2 : w :: r1 = (w :: r1).takeWhile pySpace ++ r2 := by
                    rw [hr2]; exact (List.takeWhile_append_dropWhile _ _).symm
                  have e3 : r2 = "DEFINITIONS".data ++ r2.drop 11 :=
                    leadsWith_eq_append _ _ hdef
                  have e4 : r2.drop 11 = (r2.drop 11).takeWhile pySpace ++ r3 := by
                    rw [hr3]; exact (List.takeWhile_append_dropWhile _ _).symm
                  have e5 : r3 = [':', ':', '='] ++ r3.drop 3 :=
                    leadsWith_eq_append _ _ hce
                  have e6 : r3.drop 3 = (r3.drop 3).takeWhile pySpace ++ r4 := by
                    rw [hr4]; exact (List.takeWhile_append_dropWhile _ _).symm
                  have e7 : r4 = "BEGIN".data ++ r4.drop 5 := by
                    have := leadsWith_eq_append _ _ hbeg
                    simpa using this
                  conv_lhs => rw [e1, e2, e3, e4, e5, e6, e7]
                  simp [List.append_assoc]
                · intro x hx
                  rcases List.mem_cons.mp hx with hx | hx
                  · subst hx; exact hc
                  · exact List.mem_takeWhile_imp hx
                · simp [List.takeWhile, hw]
                · intro x hx; exact List.mem_takeWhile_imp hx
                · intro x hx; exact List.mem_takeWhile_imp hx
                · intro x hx; exact List.mem_takeWhile_imp hx
              · simp [hbeg] at h
            · simp [hce] at h
          · simp [hdef] at h
        · simp [hw] at h
    · simp [hc] at h

theorem headerMatchAt_ne_nil (nm : List Char) (h : headerMatchAt [] = some nm) : False := by
  simp [headerMatchAt] at h

theorem headerMatchAt_complete (nm w1 w2 w3 rest : List Char)
    (hnm : nm ≠ []) (hnmI : ∀ c ∈ nm, isIdentPy c = true)
    (hw1 : w1 ≠ []) (hw1S : ∀ c ∈ w1, pySpace c = true)
    (hw2S : ∀ c ∈ w2, pySpace c = true) (hw3S : ∀ c ∈ w3, pySpace c = true) :
    (headerMatchAt (nm ++ w1 ++ "DEFINITIONS".data ++ w2 ++ [':', ':', '=']
      ++ w3 ++ "BEGIN".data ++ rest)).isSome = true := by
  match nm, hnm with
  | n0 :: nmr, _ =>
    match w1, hw1 with
    | s0 :: w1r, _ =>
      have hn0 : isIdentPy n0 = true := hnmI n0 (by simp)
      have hnmrI : ∀ c ∈ nmr, isIdentPy c = true := fun c hc => hnmI c (by simp [hc])
      have hs0 : pySpace s0 = true := hw1S s0 (by simp)
      have hw1rS : ∀ c ∈ w1r, pySpace c = true := fun c hc => hw1S c (by simp [hc])
      have hs0I : isIdentPy s0 = false := pySpace_not_identPy s0 hs0
      have hshape : (n0 :: nmr) ++ (s0 :: w1r) ++ "DEFINITIONS".data ++ w2
          ++ [':', ':', '='] ++ w3 ++ "BEGIN".data ++ rest
          = n0 :: (nmr ++ s0 :: (w1r ++ ("DEFINITIONS".data ++ (w2
            ++ (':' :: ':' :: '=' :: (w3 ++ ("BEGIN".data ++ rest))))))) := by
        simp [List.append_assoc]
      rw [hshape]
      set R3 := w3 ++ ("BEGIN".data ++ rest) with hR3
      set R2 := w2 ++ (':' :: ':' :: '=' :: R3) with hR2
      set R1 := w1r ++ ("DEFINITIONS".data ++ R2) with hR1
      set R0 := nmr ++ s0 :: R1 with hR0
      have hDcons : "DEFINITIONS".data = 'D' :: "EFINITIONS".data := rfl
      have hBcons : "BEGIN".data = 'B' :: "EGIN".data := rfl
      have eDrop : R0.dropWhile isIdentPy = s0 :: R1 := by
        rw [hR0]; exact dropWhile_stops _ _ _ hnmrI hs0I
      have hDR2 : 'D' :: ("EFINITIONS".data ++ R2) = "DEFINITIONS".data ++ R2 := by
        rw [hDcons]; simp
      have eWs1 : (s0 :: R1).dropWhile pySpace = "DEFINITIONS".data ++ R2 := by
        have hsh : s0 :: R1 = (s0 :: w1r) ++ ('D' :: ("EFINITIONS".data ++ R2)) := by
          rw [hR1, hDR2]; simp
        rw [hsh, dropWhile_stops _ _ _ hw1S (by decide), hDR2]
      have eLW1 : leadsWith "DEFINITIONS".data ("DEFINITIONS".data ++ R2) = true :=
        leadsWith_self_append _ _
      have eDrop11 : ("DEFINITIONS".data ++ R2).drop 11 = R2 := by
        rw [show (11 : Nat) = ("DEFINITIONS".data).length from rfl]
        exact List.drop_left _ _
      have eWs2 : R2.dropWhile pySpace = ':' :: ':' :: '=' :: R3 := by
        rw [hR2]; exact dropWhile_stops _ _ _ hw2S (by decide)
      have eLW2 : leadsWith [':', ':', '='] (':' :: ':' :: '=' :: R3) = true := by
        simp [leadsWith]
      have hBR : 'B' :: ("EGIN".data ++ rest) = "BEGIN".data ++ rest := by
        rw [hBcons]; simp
      have eWs3 : R3.dropWhile pySpace = "BEGIN".data ++ rest := by
        have hsh : R3 = w3 ++ ('B' :: ("EGIN".data ++ rest)) := by
          rw [hR3, hBR]
        rw [hsh, dropWhile_stops _ _ _ hw3S (by decide), hBR]
      have eLW3 : leadsWith "BEGIN".data ("BEGIN".data ++ rest) = true :=
        leadsWith_self_append _ _
      unfold headerMatchAt
      simp only [hn0, Bool.not_true, Bool.false_eq_true, if_false, eDrop, eWs1, eLW1,
        eDrop11, eWs2, eLW2, List.drop_succ_cons, List.drop_zero, eWs3, eLW3, hs0,
        Option.isSome_some]

theorem headerMatchAt_some_eq (cs nm : List Char) (h : headerMatchAt cs = some nm) :
    ∃ c r, cs = c :: r ∧ nm = c :: r.takeWhile isIdentPy := by
  match cs with
  | [] => simp [headerMatchAt] at h
  | c :: r =>
    unfold headerMatchAt at h
    by_cases hc : isIdentPy c
    · simp only [hc, Bool.not_true, Bool.false_eq_true, if_false] at h
      match hdw : r.dropWhile isIdentPy with
      | [] => rw [hdw] at h; simp at h
      | w :: r1 =>
        rw [hdw] at h
        simp only [] at h
        by_cases hw : pySpace w
        · simp only [hw, Bool.not_true, Bool.false_eq_true, if_false] at h
          by_cases hdef : leadsWith "DEFINITIONS".data ((w :: r1).dropWhile pySpace)
          · simp only [hdef, Bool.not_true, Bool.false_eq_true, if_false] at h
            by_cases hce : leadsWith [':', ':', '=']
                ((((w :: r1).dropWhile pySpace).drop 11).dropWhile pySpace)
            · simp only [hce, Bool.not_true, Bool.false_eq_true, if_false] at h
              by_cases hbeg : leadsWith "BEGIN".data
                  ((((((w :: r1).dropWhile pySpace).drop 11).dropWhile pySpace).drop 3).dropWhile pySpace)
              · simp only [hbeg, Bool.not_true, Bool.false_eq_true, if_false,
                  Option.some.injEq] at h
                exact ⟨c, r, rfl, h.symm⟩
              · simp [hbeg] at h
            · simp [hce] at h
          · simp [hdef] at h
        · simp [hw] at h
    · simp [hc] at h

theorem searchHeaderName_suffix (pre cs : List Char)
    (h : (headerMatchAt cs).isSome = true) :
    (searchHeaderName (pre ++ cs)).isSome = true := by
  induction pre with
  | nil =>
    match cs, h with
    | c :: r, h =>
      show (searchHeaderName (c :: r)).isSome = true
      unfold searchHeaderName
      cases hm : headerMatchAt (c :: r) with
      | some nm => simp
      | none => rw [hm] at h; simp at h
  | cons x xs ih =>
    show (searchHeaderName (x :: (xs ++ cs))).isSome = true
    unfold searchHeaderName
    cases hm : headerMatchAt (x :: (xs ++ cs)) with
    | some nm => simp
    | none => simpa using ih

theorem searchHeaderName_sound (cs nm : List Char)
    (h : searchHeaderName cs = some nm) : HeaderSpec cs := by
  induction cs with
  | nil => simp [searchHeaderName] at h
  | cons c r ih =>
    unfold searchHeaderName at h
    cases hm : headerMatchAt (c :: r) with
    | some nm' => exact headerMatchAt_sound _ nm' hm
    | none =>
      rw [hm] at h
      obtain ⟨pre, nm', w1, w2, w3, rest, heq, h2, h3, h4, h5, h6, h7⟩ := ih h
      exact ⟨c :: pre, nm', w1, w2, w3, rest, by simp [heq, List.append_assoc], h2, h3, h4,
        h5, h6, h7⟩

theorem searchHeaderName_ne_nil (cs nm : List Char)
    (h : searchHeaderName cs = some nm) : nm ≠ [] := by
  induction cs with
  | nil => simp [searchHeaderName] at h
  | cons c r ih =>
    unfold searchHeaderName at h
    cases hm : headerMatchAt (c :: r) with
    | some nm' =>
      rw [hm] at h
      obtain ⟨c', r', _, hshape⟩ := headerMatchAt_some_eq _ _ hm
      simp only [Option.some.injEq] at h
      subst h
      simp [hshape]
    | none => rw [hm] at h; exact ih h

theorem headerSpec_search (cs : List Char) (h : HeaderSpec cs) :
    (searchHeaderName cs).isSome = true := by
  obtain ⟨pre, nm, w1, w2, w3, rest, heq, h2, h3, h4, h5, h6, h7⟩ := h
  subst heq
  have hsuf := headerMatchAt_complete nm w1 w2 w3 rest h2 h3 h4 h5 h6 h7
  have := searchHeaderName_suffix pre
    (nm ++ w1 ++ "DEFINITIONS".data ++ w2 ++ [':', ':', '='] ++ w3 ++ "BEGIN".data ++ rest)
    hsuf
  simpa [List.append_assoc] using this

theorem parse_isSome_iff (t : String) :
    (parse t).isSome = true ↔ HeaderSpec (preprocess t) := by
  cases hs : searchHeaderName (preprocess t) with
  | none =>
    simp only [parse, hs, Option.isSome_none, Bool.false_eq_true, false_iff]
    intro hh
    have := headerSpec_search _ hh
    rw [hs] at this
    simp at this
  | some nm =>
    have hne : nm ≠ [] := searchHeaderName_ne_nil _ _ hs
    have hbeq : (((⟨nm⟩ : String)) == "") = false := by
      refine beq_eq_false_iff_ne.mpr (fun he => hne ?_)
      have := congrArg String.data he
      simpa using this
    simp only [parse, hs, hbeq, Bool.false_eq_true, if_false, Option.isSome_some, true_iff]
    exact searchHeaderName_sound _ _ hs

/-! ## The fixed-point resolver (claims C5 and C6) -/

/-- Number of resolved nodes: the termination measure of the pass
loop. -/
def rcount (ns : List PNode) : Nat := (ns.filter (fun n => n.oid.isSome)).length

theorem rcount_le_length (ns : List PNode) : rcount ns ≤ ns.length :=
  List.length_filter_le _ _

theorem rcount_append (a b : List PNode) : rcount (a ++ b) = rcount a + rcount b := by
  simp [rcount]

theorem rcount_nil : rcount [] = 0 := rfl

theorem rcount_cons (n : PNode) (l : List PNode) :
    rcount (n :: l) = (if n.oid.isSome then 1 else 0) + rcount l := by
  simp only [rcount, List.filter]
  cases h : n.oid.isSome <;> simp [h, Nat.add_comm]

theorem resolveStep_unresolved (ns : List PNode) (m : List (String × String))
    (n : PNode) (x : String × String × String) (h : resolveStep ns m n = some x) :
    n.oid = none := by
  cases ho : n.oid with
  | none => rfl
  | some v => simp [resolveStep, ho] at h

theorem runPassAux_prog (rest : List PNode) :
    ∀ prev m, (runPassAux prev rest m true).2.2 = true := by
  induction rest with
  | nil => intro prev m; rfl
  | cons n rs ih =>
    intro prev m
    unfold runPassAux
    cases hr : resolveStep (prev ++ n :: rs) m n with
    | none => exact ih _ _
    | some x =>
      rcases x with ⟨p, sub, newOid⟩
      exact ih _ _

theorem runPassAux_len (rest : List PNode) :
    ∀ prev m prog, (runPassAux prev rest m prog).1.length = prev.length + rest.length := by
  induction rest with
  | nil => intro prev m prog; simp [runPassAux]
  | cons n rs ih =>
    intro prev m prog
    unfold runPassAux
    cases hr : resolveStep (prev ++ n :: rs) m n with
    | none => rw [ih]; simp; omega
    | some x =>
      rcases x with ⟨p, sub, newOid⟩
      rw [ih]; simp; omega

theorem runPassAux_no_prog (rest : List PNode) :
    ∀ prev m, (runPassAux prev rest m false).2.2 = false →
      runPassAux prev rest m false = (prev ++ rest, m, false) := by
  induction rest with
  | nil => intro prev m _; simp [runPassAux]
  | cons n rs ih =>
    intro prev m h
    unfold runPassAux at h ⊢
    cases hr : resolveStep (prev ++ n :: rs) m n with
    | none =>
      rw [hr] at h
      rw [ih (prev ++ [n]) m h]
      simp
    | some x =>
      rcases x with ⟨p, sub, newOid⟩
      rw [hr] at h
      rw [runPassAux_prog] at h
      exact absurd h (by simp)

theorem runPassAux_rcount_ge (rest : List PNode) :
    ∀ prev m prog, rcount prev + rcount rest ≤ rcount (runPassAux prev rest m prog).1 := by
  induction rest with
  | nil => intro prev m prog; simp [runPassAux, rcount_nil]
  | cons n rs ih =>
    intro prev m prog
    unfold runPassAux
    cases hr : resolveStep (prev ++ n :: rs) m n with
    | none =>
      simp only []
      have h1 := ih (prev ++ [n]) m prog
      rw [rcount_append] at h1
      rw [rcount_cons]
      have h2 : rcount [n] = if n.oid.isSome then 1 else 0 := by
        rw [rcount_cons]
        simp [rcount_nil]
      rw [h2] at h1
      omega
    | some x =>
      rcases x with ⟨p, sub, newOid⟩
      simp only []
      have hu : n.oid = none := resolveStep_unresolved _ _ _ _ hr
      have h1 := ih (prev ++ [resolvedNode n p sub newOid]) (dictSet n.name newOid m) true
      rw [rcount_append] at h1
      have h2 : rcount [resolvedNode n p sub newOid] = 1 := by
        simp [rcount, resolvedNode]
      rw [h2] at h1
      rw [rcount_cons, hu]
      simp only [Option.isSome_none, Bool.false_eq_true, if_false]
      omega

theorem runPassAux_strict (rest : List PNode) :
    ∀ prev m, (runPassAux prev rest m false).2.2 = true →
      rcount prev + rcount rest < rcount (runPassAux prev rest m false).1 := by
  induction rest with
  | nil =>
    intro prev m h
    simp [runPassAux] at h
  | cons n rs ih =>
    intro prev m h
    unfold runPassAux at h ⊢
    cases hr : resolveStep (prev ++ n :: rs) m n with
    | none =>
      rw [hr] at h
      simp only [] at h ⊢
      have h1 := ih (prev ++ [n]) m h
      rw [rcount_append] at h1
      rw [rcount_cons]
      have h2 : rcount [n] = if n.oid.isSome then 1 else 0 := by
        rw [rcount_cons]
        simp [rcount_nil]
      rw [h2] at h1
      omega
    | some x =>
      rcases x with ⟨p, sub, newOid⟩
      rw [hr] at h
      simp only [] at h ⊢
      have hu : n.oid = none := resolveStep_unresolved _ _ _ _ hr
      have h1 := runPassAux_rcount_ge rs (prev ++ [resolvedNode n p sub newOid])
        (dictSet n.name newOid m) true
      rw [rcount_append] at h1
      have h2 : rcount [resolvedNode n p sub newOid] = 1 := by
        simp [rcount, resolvedNode]
      rw [h2] at h1
      rw [rcount_cons, hu]
      simp only [Option.isSome_none, Bool.false_eq_true, if_false]
      omega

theorem resolveLoop_fix (fuel : Nat) :
    ∀ ns m, ns.length + 1 ≤ rcount ns + fuel →
      runPass (resolveLoop fuel ns m).1 (resolveLoop fuel ns m).2
        = ((resolveLoop fuel ns m).1, (resolveLoop fuel ns m).2, false) := by
  induction fuel with
  | zero =>
    intro ns m hf
    have := rcount_le_length ns
    omega
  | succ fuel ih =>
    intro ns m hf
    rcases hp : runPass ns m with ⟨ns', m', prog⟩
    cases prog with
    | false =>
      have hid : runPass ns m = (ns, m, false) := by
        have h0 : (runPassAux [] ns m false).2.2 = false := by
          show (runPass ns m).2.2 = false
          rw [hp]
        have := runPassAux_no_prog ns [] m h0
        simpa [runPass] using this
      have hns : ns' = ns ∧ m' = m := by
        rw [hp] at hid
        exact ⟨congrArg (fun t => t.1) hid, congrArg (fun t => t.2.1) hid⟩
      have hloop : resolveLoop (fuel + 1) ns m = (ns', m') := by
        conv_lhs => unfold resolveLoop
        rw [hp]
      rw [hloop]
      rw [hns.1, hns.2]
      exact hid
    | true =>
      have hloop : resolveLoop (fuel + 1) ns m = resolveLoop fuel ns' m' := by
        conv_lhs => unfold resolveLoop
        rw [hp]
      rw [hloop]
      have hlen : ns'.length = ns.length := by
        have := runPassAux_len ns [] m false
        show ns'.length = ns.length
        have h2 : (runPass ns m).1.length = ns.length := by
          simpa [runPass] using this
        rw [hp] at h2
        exact h2
      have hstrict : rcount ns < rcount ns' := by
        have h3 : (runPassAux [] ns m false).2.2 = true := by
          show (runPass ns m).2.2 = true
          rw [hp]
        have := runPassAux_strict ns [] m h3
        rw [show runPassAux [] ns m false = runPass ns m from rfl, hp] at this
        simpa [rcount_nil] using this
      exact ih ns' m' (by omega)

/-- The pass-2 fixed point: with fuel `N + 1` the loop has converged —
running one more pass changes nothing and reports no progress. -/
theorem pass2_fixed_point (ns : List PNode) (m : List (String × String)) :
    runPass (resolveLoop (ns.length + 1) ns m).1 (resolveLoop (ns.length + 1) ns m).2
      = ((resolveLoop (ns.length + 1) ns m).1, (resolveLoop (ns.length + 1) ns m).2,
        false) :=
  resolveLoop_fix (ns.length + 1) ns m (by omega)

/-! ### Order independence of the fixed point (claim C6)

The derivable name/oid pairs of a declaration set: `iso` is seeded as
`1`, and a declaration whose parsed parent is derivable and whose
sub-identifier is all digits derives its concatenation.  Membership is
the only way the declaration list enters, so the relation is invariant
under permutation — the key to order independence. -/

def declsOf (ns : List PNode) : List (String × String) :=
  ns.map (fun n => (n.name, n.oidDef))

inductive ResolvesD (ds : List (String × String)) : String → String → Prop
  | iso : ResolvesD ds "iso" "1"
  | step (nm df p sub po : String) : (nm, df) ∈ ds →
      parse_oid_def df = some (p, sub) → pyIsDigit sub.data = true →
      ResolvesD ds p po → ResolvesD ds nm (po ++ "." ++ sub)

theorem resolvesD_congr (ds₁ ds₂ : List (String × String))
    (h : ∀ x, x ∈ ds₁ → x ∈ ds₂) :
    ∀ k v, ResolvesD ds₁ k v → ResolvesD ds₂ k v := by
  intro k v hr
  induction hr with
  | iso => exact ResolvesD.iso
  | step nm df p sub po hmem hparse hdig _ ih =>
    exact ResolvesD.step nm df p sub po (h _ hmem) hparse hdig ih

theorem resolvesD_ne_empty (ds : List (String × String)) (k v : String)
    (h : ResolvesD ds k v) : v ≠ "" := by
  induction h with
  | iso => decide
  | step nm df p sub po _ _ _ _ _ =>
    intro he
    have := congrArg String.data he
    rw [String.data_append, String.data_append] at this
    simp at this

theorem resolvesD_iso_eq (ds : List (String × String))
    (hiso : ∀ df, ("iso", df) ∉ ds) (v : String)
    (h : ResolvesD ds "iso" v) : v = "1" := by
  cases h with
  | iso => rfl
  | step nm df p sub po hmem _ _ _ => exact absurd hmem (hiso df)

theorem assoc_unique {β : Type} (k : String) (a b : β) (l : List (String × β))
    (hnd : (l.map Prod.fst).Nodup) (ha : (k, a) ∈ l) (hb : (k, b) ∈ l) : a = b := by
  induction l with
  | nil => simp at ha
  | cons x xs ih =>
    simp only [List.map_cons, List.nodup_cons] at hnd
    rcases List.mem_cons.mp ha with ha' | ha' <;>
      rcases List.mem_cons.mp hb with hb' | hb'
    · exact congrArg Prod.snd (ha'.trans hb'.symm)
    · exfalso
      apply hnd.1
      have hm : k ∈ xs.map Prod.fst := List.mem_map_of_mem Prod.fst hb'
      have hk : k = x.1 := congrArg Prod.fst ha'
      rwa [hk] at hm
    · exfalso
      apply hnd.1
      have hm : k ∈ xs.map Prod.fst := List.mem_map_of_mem Prod.fst ha'
      have hk : k = x.1 := congrArg Prod.fst hb'
      rwa [hk] at hm
    · exact ih hnd.2 ha' hb'

theorem resolvesD_functional (ds : List (String × String))
    (hnd : (ds.map Prod.fst).Nodup) (hiso : ∀ df, ("iso", df) ∉ ds) :
    ∀ k v₁ v₂, ResolvesD ds k v₁ → ResolvesD ds k v₂ → v₁ = v₂ := by
  intro k v₁ v₂ h1
  induction h1 generalizing v₂ with
  | iso =>
    intro h2
    exact (resolvesD_iso_eq ds hiso v₂ h2).symm
  | step nm df p sub po hmem hparse hdig hpo ih =>
    intro h2
    cases h2 with
    | iso => exact absurd hmem (hiso df)
    | step nm₂ df₂ p₂ sub₂ po₂ hmem₂ hparse₂ hdig₂ hpo₂ =>
      have hdf : df = df₂ := assoc_unique nm df df₂ ds hnd hmem hmem₂
      subst hdf
      rw [hparse] at hparse₂
      have hps : p = p₂ ∧ sub = sub₂ := by
        have := Option.some.inj hparse₂
        exact ⟨congrArg Prod.fst this, congrArg Prod.snd this⟩
      obtain ⟨hp, hsub⟩ := hps
      subst hp; subst hsub
      rw [ih po₂ hpo₂]

theorem lookup_some_mem {β : Type} (k : String) (v : β) (l : List (String × β))
    (h : List.lookup k l = some v) : (k, v) ∈ l := by
  induction l with
  | nil => simp [List.lookup] at h
  | cons x xs ih =>
    cases x with
    | mk a b =>
      rw [List.lookup] at h
      by_cases he : k = a
      · subst he
        simp only [beq_self_eq_true] at h
        simp only [Option.some.injEq] at h
        simp [h]
      · simp only [show (k == a) = false by simp [he]] at h
        exact List.mem_cons_of_mem _ (ih h)

theorem mem_lookup_isSome {β : Type} (k : String) (v : β) (l : List (String × β))
    (h : (k, v) ∈ l) : ∃ w, List.lookup k l = some w := by
  induction l with
  | nil => simp at h
  | cons x xs ih =>
    cases x with
    | mk a b =>
      rw [List.lookup]
      by_cases he : k = a
      · exact ⟨b, by simp [he]⟩
      · simp only [show (k == a) = false by simp [he]]
        rcases List.mem_cons.mp h with h' | h'
        · exact absurd (congrArg Prod.fst h') he
        · exact ih h'

theorem dictSet_fresh (k v : String) (m : List (String × String))
    (h : ∀ kv ∈ m, kv.1 ≠ k) : dictSet k v m = m ++ [(k, v)] := by
  induction m with
  | nil => rfl
  | cons x xs ih =>
    have hx : x.1 ≠ k := h x (by simp)
    cases x with
    | mk a b =>
      simp only [dictSet, show (a == k) = false by simpa using hx, Bool.false_eq_true,
        if_false, List.cons_append, List.cons.injEq, true_and]
      exact ih (fun kv hkv => h kv (by simp [hkv]))

/-- The resolver-state invariant: every recorded oid (in the map and in
the nodes) is derivable, the map covers exactly the seed plus the
resolved nodes, and the static declaration set is unchanged. -/
structure Good (ds : List (String × String)) (ns : List PNode)
    (m : List (String × String)) : Prop where
  declsEq : declsOf ns = ds
  mSound : ∀ kv ∈ m, (kv.1 = "iso" ∧ kv.2 = "1") ∨ ResolvesD ds kv.1 kv.2
  nSound : ∀ n ∈ ns, ∀ v, n.oid = some v → ResolvesD ds n.name v
  mIso : ("iso", "1") ∈ m
  mCover : ∀ kv ∈ m, kv.1 ≠ "iso" → ∃ n ∈ ns, n.name = kv.1 ∧ n.oid = some kv.2
  nCover : ∀ n ∈ ns, ∀ v, n.oid = some v → (n.name, v) ∈ m

theorem good_names (ds : List (String × String)) (ns : List PNode)
    (m : List (String × String)) (hG : Good ds ns m) :
    ns.map (fun n => n.name) = ds.map Prod.fst := by
  rw [← hG.declsEq]
  simp [declsOf]

theorem node_unique (ns : List PNode) (hnd : (ns.map (fun n => n.name)).Nodup) :
    ∀ n₁ ∈ ns, ∀ n₂ ∈ ns, n₁.name = n₂.name → n₁ = n₂ := by
  induction ns with
  | nil => simp
  | cons x xs ih =>
    simp only [List.map_cons, List.nodup_cons] at hnd
    intro n₁ h₁ n₂ h₂ he
    rcases List.mem_cons.mp h₁ with h₁' | h₁' <;> rcases List.mem_cons.mp h₂ with h₂' | h₂'
    · rw [h₁', h₂']
    · exfalso
      apply hnd.1
      have hm : n₂.name ∈ xs.map (fun n => n.name) := List.mem_map_of_mem _ h₂'
      rw [← he, h₁'] at hm
      exact hm
    · exfalso
      apply hnd.1
      have hm : n₁.name ∈ xs.map (fun n => n.name) := List.mem_map_of_mem _ h₁'
      rw [he, h₂'] at hm
      exact hm
    · exact ih hnd.2 n₁ h₁' n₂ h₂' he

theorem truthyOpt_some (o : Option String) (v : String) (h : truthyOpt o = some v) :
    o = some v := by
  match o with
  | none => simp [truthyOpt] at h
  | some "" => simp [truthyOpt] at h
  | some w =>
    unfold truthyOpt at h
    split at h
    · exact absurd h (by simp)
    · exact h

theorem resolveStep_some_spec (ns : List PNode) (m : List (String × String))
    (n : PNode) (p sub newOid : String)
    (h : resolveStep ns m n = some (p, sub, newOid)) :
    n.oid = none ∧ parse_oid_def n.oidDef = some (p, sub) ∧ pyIsDigit sub.data = true ∧
      ∃ po, truthyOpt (parentLookup ns m p) = some po ∧ newOid = po ++ "." ++ sub := by
  unfold resolveStep at h
  by_cases ho : n.oid.isSome
  · simp [ho] at h
  · have hnone : n.oid = none := by
      cases hoo : n.oid
      · rfl
      · rw [hoo] at ho; simp at ho
    simp only [ho, Bool.false_eq_true, if_false] at h
    match hp : parse_oid_def n.oidDef with
    | none => rw [hp] at h; simp at h
    | some (p', sub') =>
      rw [hp] at h
      simp only [] at h
      match ht : truthyOpt (parentLookup ns m p') with
      | none => rw [ht] at h; simp at h
      | some po =>
        rw [ht] at h
        simp only [] at h
        by_cases hd : pyIsDigit sub'.data
        · simp only [hd, if_true, Option.some.injEq] at h
          have hpp : p' = p := congrArg (fun t => t.1) h
          have hss : sub' = sub := congrArg (fun t => t.2.1) h
          have hoo : po ++ "." ++ sub' = newOid := congrArg (fun t => t.2.2) h
          subst hpp; subst hss
          exact ⟨hnone, rfl, hd, po, ht, hoo.symm⟩
        · simp [hd] at h

theorem parentLookup_sound (ds : List (String × String)) (ns : List PNode)
    (m : List (String × String)) (p po : String) (hG : Good ds ns m)
    (h : truthyOpt (parentLookup ns m p) = some po) : ResolvesD ds p po := by
  have h1 : parentLookup ns m p = some po := truthyOpt_some _ _ h
  unfold parentLookup at h1
  match ht : truthyOpt (List.lookup p m) with
  | some v =>
    rw [ht] at h1
    simp only [Option.some.injEq] at h1
    subst h1
    have h2 : List.lookup p m = some v := truthyOpt_some _ _ ht
    have h3 : (p, v) ∈ m := lookup_some_mem _ _ _ h2
    rcases hG.mSound _ h3 with ⟨he1, he2⟩ | hres
    · simp only [] at he1 he2
      rw [he1, he2]
      exact ResolvesD.iso
    · exact hres
  | none =>
    rw [ht] at h1
    unfold findNodeOid at h1
    match hf : ns.find? (fun n => n.name == p) with
    | none => rw [hf] at h1; simp at h1
    | some node =>
      rw [hf] at h1
      have hmem : node ∈ ns := List.mem_of_find?_eq_some hf
      have hname : node.name = p := by
        have := List.find?_some hf
        simpa using this
      have := hG.nSound node hmem po h1
      rwa [hname] at this

theorem resolving_fresh (ds : List (String × String)) (ns : List PNode)
    (m : List (String × String)) (hG : Good ds ns m)
    (hnd : (ds.map Prod.fst).Nodup) (hiso : "iso" ∉ ds.map Prod.fst)
    (n : PNode) (hn : n ∈ ns) (hun : n.oid = none) :
    ∀ kv ∈ m, kv.1 ≠ n.name := by
  intro kv hkv he
  have hnames : ns.map (fun x => x.name) = ds.map Prod.fst := good_names _ _ _ hG
  have hnn : n.name ∈ ds.map Prod.fst := by
    rw [← hnames]
    exact List.mem_map_of_mem _ hn
  by_cases hki : kv.1 = "iso"
  · rw [hki] at he
    rw [← he] at hnn
    exact hiso hnn
  · obtain ⟨n', hn', hname', hoid'⟩ := hG.mCover kv hkv hki
    have hndn : (ns.map (fun x => x.name)).Nodup := by rw [hnames]; exact hnd
    have : n' = n := node_unique ns hndn n' hn' n hn (by rw [hname', he])
    rw [this] at hoid'
    rw [hun] at hoid'
    exact absurd hoid' (by simp)

theorem declsOf_middle (prev rs : List PNode) (n n' : PNode)
    (hname : n'.name = n.name) (hdef : n'.oidDef = n.oidDef) :
    declsOf (prev ++ n' :: rs) = declsOf (prev ++ n :: rs) := by
  simp [declsOf, hname, hdef]

theorem step_preserves (ds : List (String × String))
    (hnd : (ds.map Prod.fst).Nodup) (hiso : "iso" ∉ ds.map Prod.fst)
    (prev rs : List PNode) (m : List (String × String)) (n : PNode)
    (p sub newOid : String)
    (hG : Good ds (prev ++ n :: rs) m)
    (hr : resolveStep (prev ++ n :: rs) m n = some (p, sub, newOid)) :
    Good ds (prev ++ resolvedNode n p sub newOid :: rs) (dictSet n.name newOid m) := by
  obtain ⟨hnone, hparse, hdig, po, hpo, hoid⟩ := resolveStep_some_spec _ _ _ _ _ _ hr
  have hmem : n ∈ prev ++ n :: rs := by simp
  have hnew : ResolvesD ds n.name newOid := by
    rw [hoid]
    exact ResolvesD.step n.name n.oidDef p sub po
      (by rw [← hG.declsEq]; exact List.mem_map_of_mem _ hmem) hparse hdig
      (parentLookup_sound ds _ m p po hG hpo)
  have hfresh : ∀ kv ∈ m, kv.1 ≠ n.name :=
    resolving_fresh ds _ m hG hnd hiso n hmem hnone
  have hm' : dictSet n.name newOid m = m ++ [(n.name, newOid)] :=
    dictSet_fresh _ _ _ hfresh
  have hset : ∀ kv, kv ∈ dictSet n.name newOid m ↔ kv ∈ m ∨ kv = (n.name, newOid) := by
    intro kv
    rw [hm']
    simp
  refine ⟨?_, ?_, ?_, ?_, ?_, ?_⟩
  · rw [declsOf_middle prev rs n (resolvedNode n p sub newOid) rfl rfl]
    exact hG.declsEq
  · intro kv hkv
    rcases (hset kv).mp hkv with hkv' | hkv'
    · exact hG.mSound kv hkv'
    · right
      rw [hkv']
      exact hnew
  · intro n' hn' v hv
    rcases List.mem_append.mp hn' with hn'' | hn''
    · exact hG.nSound n' (by simp [hn'']) v hv
    · rcases List.mem_cons.mp hn'' with hn3 | hn3
      · rw [hn3] at hv ⊢
        have : v = newOid := by
          have : (resolvedNode n p sub newOid).oid = some newOid := rfl
          rw [this] at hv
          exact (Option.some.inj hv).symm
        rw [this]
        exact hnew
      · exact hG.nSound n' (by simp [hn3]) v hv
  · exact (hset _).mpr (Or.inl hG.mIso)
  · intro kv hkv hki
    rcases (hset kv).mp hkv with hkv' | hkv'
    · obtain ⟨n', hn', hname', hoid'⟩ := hG.mCover kv hkv' hki
      rcases List.mem_append.mp hn' with hn'' | hn''
      · exact ⟨n', by simp [hn''], hname', hoid'⟩
      · rcases List.mem_cons.mp hn'' with hn3 | hn3
        · exfalso
          rw [hn3] at hoid'
          rw [hnone] at hoid'
          exact absurd hoid' (by simp)
        · exact ⟨n', by simp [hn3], hname', hoid'⟩
    · refine ⟨resolvedNode n p sub newOid, by simp, ?_, ?_⟩
      · rw [hkv']
        rfl
      · rw [hkv']
        rfl
  · intro n' hn' v hv
    rcases List.mem_append.mp hn' with hn'' | hn''
    · exact (hset _).mpr (Or.inl (hG.nCover n' (by simp [hn'']) v hv))
    · rcases List.mem_cons.mp hn'' with hn3 | hn3
      · rw [hn3]
        rw [hn3] at hv
        have hveq : v = newOid := by
          have hh : (resolvedNode n p sub newOid).oid = some newOid := rfl
          rw [hh] at hv
          exact (Option.some.inj hv).symm
        rw [hveq]
        exact (hset _).mpr (Or.inr rfl)
      · exact (hset _).mpr (Or.inl (hG.nCover n' (by simp [hn3]) v hv))

theorem runPassAux_good (ds : List (String × String))
    (hnd : (ds.map Prod.fst).Nodup) (hiso : "iso" ∉ ds.map Prod.fst)
    (rest : List PNode) :
    ∀ prev m prog, Good ds (prev ++ rest) m →
      Good ds (runPassAux prev rest m prog).1 (runPassAux prev rest m prog).2.1 := by
  induction rest with
  | nil =>
    intro prev m prog hG
    simpa [runPassAux] using hG
  | cons n rs ih =>
    intro prev m prog hG
    unfold runPassAux
    cases hr : resolveStep (prev ++ n :: rs) m n with
    | none =>
      simp only []
      exact ih (prev ++ [n]) m prog (by simpa using hG)
    | some x =>
      rcases x with ⟨p, sub, newOid⟩
      simp only []
      have hG' := step_preserves ds hnd hiso prev rs m n p sub newOid hG hr
      exact ih (prev ++ [resolvedNode n p sub newOid]) (dictSet n.name newOid m) true
        (by simpa using hG')

theorem resolveLoop_good (ds : List (String × String))
    (hnd : (ds.map Prod.fst).Nodup) (hiso : "iso" ∉ ds.map Prod.fst) (fuel : Nat) :
    ∀ ns m, Good ds ns m →
      Good ds (resolveLoop fuel ns m).1 (resolveLoop fuel ns m).2 := by
  induction fuel with
  | zero => intro ns m hG; exact hG
  | succ fuel ih =>
    intro ns m hG
    rcases hp : runPass ns m with ⟨ns', m', prog⟩
    have hG' : Good ds ns' m' := by
      have := runPassAux_good ds hnd hiso ns [] m false (by simpa using hG)
      rw [show runPassAux [] ns m false = runPass ns m from rfl, hp] at this
      exact this
    cases prog with
    | true =>
      have hloop : resolveLoop (fuel + 1) ns m = resolveLoop fuel ns' m' := by
        conv_lhs => unfold resolveLoop
        rw [hp]
      rw [hloop]
      exact ih ns' m' hG'
    | false =>
      have hloop : resolveLoop (fuel + 1) ns m = (ns', m') := by
        conv_lhs => unfold resolveLoop
        rw [hp]
      rw [hloop]
      exact hG'

theorem truthyOpt_some_of_ne (v : String) (h : v ≠ "") : truthyOpt (some v) = some v := by
  unfold truthyOpt
  split
  · rename_i heq
    exact absurd (Option.some.inj heq) h
  · rfl

theorem runPassAux_no_prog_steps (rest : List PNode) :
    ∀ prev m, (runPassAux prev rest m false).2.2 = false →
      ∀ n ∈ rest, resolveStep (prev ++ rest) m n = none := by
  induction rest with
  | nil => intro prev m _ n hn; simp at hn
  | cons x rs ih =>
    intro prev m h n hn
    unfold runPassAux at h
    cases hr : resolveStep (prev ++ x :: rs) m x with
    | some y =>
      rcases y with ⟨p, sub, newOid⟩
      rw [hr] at h
      simp only [] at h
      rw [runPassAux_prog] at h
      exact absurd h (by simp)
    | none =>
      rw [hr] at h
      simp only [] at h
      rcases List.mem_cons.mp hn with hn' | hn'
      · rw [hn']; exact hr
      · have := ih (prev ++ [x]) m h n hn'
        simpa using this

theorem fixpoint_complete (ds : List (String × String))
    (hnd : (ds.map Prod.fst).Nodup) (hiso : "iso" ∉ ds.map Prod.fst)
    (ns : List PNode) (m : List (String × String))
    (hG : Good ds ns m)
    (hsteps : ∀ n ∈ ns, resolveStep ns m n = none) :
    ∀ k v, ResolvesD ds k v → List.lookup k m = some v := by
  have hisoDs : ∀ df, ("iso", df) ∉ ds := by
    intro df hdf
    exact hiso (List.mem_map_of_mem Prod.fst hdf)
  intro k v hr
  induction hr with
  | iso =>
    obtain ⟨w, hw⟩ := mem_lookup_isSome "iso" "1" m hG.mIso
    have hmem := lookup_some_mem _ _ _ hw
    rcases hG.mSound _ hmem with ⟨_, he⟩ | hres
    · rw [hw]
      simp only [] at he
      rw [he]
    · rw [hw, resolvesD_iso_eq ds hisoDs w hres]
  | step nm df p sub po hmem hparse hdig hpo ih =>
    have hds : (nm, df) ∈ declsOf ns := by rw [hG.declsEq]; exact hmem
    obtain ⟨n, hn, hnp⟩ := List.mem_map.mp hds
    have hname : n.name = nm := congrArg Prod.fst hnp
    have hdef : n.oidDef = df := congrArg Prod.snd hnp
    have hstepD : ResolvesD ds nm (po ++ "." ++ sub) :=
      ResolvesD.step nm df p sub po hmem hparse hdig hpo
    have hnmiso : nm ≠ "iso" := by
      intro he
      rw [he] at hmem
      exact hisoDs df hmem
    cases ho : n.oid with
    | some v' =>
      have hmm : (nm, v') ∈ m := hname ▸ hG.nCover n hn v' ho
      obtain ⟨w, hw⟩ := mem_lookup_isSome nm v' m hmm
      have hwmem := lookup_some_mem _ _ _ hw
      rcases hG.mSound _ hwmem with ⟨he1, _⟩ | hres2
      · exact absurd he1 hnmiso
      · have : w = po ++ "." ++ sub :=
          resolvesD_functional ds hnd hisoDs nm w _ hres2 hstepD
        rw [hw, this]
    | none =>
      exfalso
      have hlp : List.lookup p m = some po := ih
      have hne : po ≠ "" := resolvesD_ne_empty ds p po hpo
      have ht1 : truthyOpt (List.lookup p m) = some po := by
        rw [hlp]; exact truthyOpt_some_of_ne po hne
      have hpl : parentLookup ns m p = some po := by
        unfold parentLookup; rw [ht1]
      have ht2 : truthyOpt (parentLookup ns m p) = some po := by
        rw [hpl]; exact truthyOpt_some_of_ne po hne
      have hfire : resolveStep ns m n = some (p, sub, po ++ "." ++ sub) := by
        unfold resolveStep
        rw [show n.oid.isSome = false by rw [ho]; rfl]
        simp only [Bool.false_eq_true, if_false]
        rw [hdef, hparse]
        simp only []
        rw [ht2]
        simp only [hdig, if_true]
      rw [hsteps n hn] at hfire
      exact absurd hfire (by simp)

theorem declsOf_fst (ns : List PNode) :
    (declsOf ns).map Prod.fst = ns.map (fun n => n.name) := by
  simp [declsOf]

/-- The fixed-point characterization: after convergence, the oid map
holds exactly the seed plus the derivable name/oid pairs. -/
theorem lookup_characterization (ds : List (String × String))
    (hnd : (ds.map Prod.fst).Nodup) (hiso : "iso" ∉ ds.map Prod.fst)
    (ns : List PNode) (m : List (String × String))
    (hG : Good ds ns m)
    (hsteps : ∀ n ∈ ns, resolveStep ns m n = none)
    (k v : String) :
    List.lookup k m = some v ↔ ((k = "iso" ∧ v = "1") ∨ ResolvesD ds k v) := by
  have hisoDs : ∀ df, ("iso", df) ∉ ds := by
    intro df hdf
    exact hiso (List.mem_map_of_mem Prod.fst hdf)
  constructor
  · intro h
    have hmem := lookup_some_mem _ _ _ h
    exact hG.mSound _ hmem
  · intro h
    rcases h with ⟨hk, hv⟩ | hres
    · subst hk; subst hv
      obtain ⟨w, hw⟩ := mem_lookup_isSome "iso" "1" m hG.mIso
      have hwm := lookup_some_mem _ _ _ hw
      rcases hG.mSound _ hwm with ⟨_, he⟩ | hres2
      · simp only [] at he
        rw [hw, he]
      · rw [hw, resolvesD_iso_eq ds hisoDs w hres2]
    · exact fixpoint_complete ds hnd hiso ns m hG hsteps k v hres

theorem char_unique (ds : List (String × String))
    (hnd : (ds.map Prod.fst).Nodup) (hisoDs : ∀ df, ("iso", df) ∉ ds)
    (k v₁ v₂ : String)
    (h₁ : (k = "iso" ∧ v₁ = "1") ∨ ResolvesD ds k v₁)
    (h₂ : (k = "iso" ∧ v₂ = "1") ∨ ResolvesD ds k v₂) : v₁ = v₂ := by
  rcases h₁ with ⟨hk₁, hv₁⟩ | hr₁ <;> rcases h₂ with ⟨hk₂, hv₂⟩ | hr₂
  · rw [hv₁, hv₂]
  · subst hk₁
    rw [hv₁, resolvesD_iso_eq ds hisoDs v₂ hr₂]
  · subst hk₂
    rw [hv₂, resolvesD_iso_eq ds hisoDs v₁ hr₁]
  · exact resolvesD_functional ds hnd hisoDs k v₁ v₂ hr₁ hr₂

/-- The initial resolver state is invariant-good. -/
theorem good_init (ns : List PNode) (hinit : ∀ n ∈ ns, n.oid = none) :
    Good (declsOf ns) ns [("iso", "1")] := by
  refine ⟨rfl, ?_, ?_, by simp, ?_, ?_⟩
  · intro kv hkv
    left
    rcases List.mem_singleton.mp hkv with h
    rw [h]
    exact ⟨rfl, rfl⟩
  · intro n hn v hv
    rw [hinit n hn] at hv
    exact absurd hv (by simp)
  · intro kv hkv hki
    rcases List.mem_singleton.mp hkv with h
    rw [h] at hki
    exact absurd rfl hki
  · intro n hn v hv
    rw [hinit n hn] at hv
    exact absurd hv (by simp)

/-- The map of `_pass2_resolve_oids` satisfies the fixed-point
characterization. -/
theorem pass2_lookup_characterization (ns : List PNode)
    (hnd : (ns.map (fun n => n.name)).Nodup)
    (hiso : "iso" ∉ ns.map (fun n => n.name))
    (hinit : ∀ n ∈ ns, n.oid = none) (k v : String) :
    List.lookup k (pass2_resolve_oids ns).2 = some v ↔
      ((k = "iso" ∧ v = "1") ∨ ResolvesD (declsOf ns) k v) := by
  have hndD : ((declsOf ns).map Prod.fst).Nodup := by rw [declsOf_fst]; exact hnd
  have hisoD : "iso" ∉ (declsOf ns).map Prod.fst := by rw [declsOf_fst]; exact hiso
  have hG0 : Good (declsOf ns) ns [("iso", "1")] := good_init ns hinit
  have hG : Good (declsOf ns) (resolveLoop (ns.length + 1) ns [("iso", "1")]).1
      (resolveLoop (ns.length + 1) ns [("iso", "1")]).2 :=
    resolveLoop_good _ hndD hisoD _ ns _ hG0
  have hfix := pass2_fixed_point ns [("iso", "1")]
  have hnp : (runPassAux [] (resolveLoop (ns.length + 1) ns [("iso", "1")]).1
      (resolveLoop (ns.length + 1) ns [("iso", "1")]).2 false).2.2 = false := by
    show (runPass _ _).2.2 = false
    rw [hfix]
  have hsteps := runPassAux_no_prog_steps _ [] _ hnp
  simp only [List.nil_append] at hsteps
  exact lookup_characterization _ hndD hisoD _ _ hG hsteps k v

/-- Order independence of the fixed-point resolver: permuting the
declaration list (same set, no duplicate names, no shadowing of the
seeded root `iso`, all oids initially unresolved) yields the same final
name-to-oid mapping. -/
theorem pass2_order_independent (ns₁ ns₂ : List PNode)
    (hperm : ns₁.Perm ns₂)
    (hnd : (ns₁.map (fun n => n.name)).Nodup)
    (hiso : "iso" ∉ ns₁.map (fun n => n.name))
    (hinit : ∀ n ∈ ns₁, n.oid = none) (k : String) :
    List.lookup k (pass2_resolve_oids ns₁).2 = List.lookup k (pass2_resolve_oids ns₂).2 := by
  have hpermN : (ns₁.map (fun n => n.name)).Perm (ns₂.map (fun n => n.name)) :=
    hperm.map _
  have hnd₂ : (ns₂.map (fun n => n.name)).Nodup := hpermN.nodup_iff.mp hnd
  have hiso₂ : "iso" ∉ ns₂.map (fun n => n.name) := fun hm =>
    hiso (hpermN.mem_iff.mpr hm)
  have hinit₂ : ∀ n ∈ ns₂, n.oid = none := fun n hn => hinit n (hperm.mem_iff.mpr hn)
  have hpermD : (declsOf ns₁).Perm (declsOf ns₂) := hperm.map _
  have hres12 : ∀ k v, ResolvesD (declsOf ns₁) k v → ResolvesD (declsOf ns₂) k v :=
    resolvesD_congr _ _ (fun x hx => hpermD.mem_iff.mp hx)
  have hres21 : ∀ k v, ResolvesD (declsOf ns₂) k v → ResolvesD (declsOf ns₁) k v :=
    resolvesD_congr _ _ (fun x hx => hpermD.mem_iff.mpr hx)
  have hchar₁ := pass2_lookup_characterization ns₁ hnd hiso hinit
  have hchar₂ := pass2_lookup_characterization ns₂ hnd₂ hiso₂ hinit₂
  have htrans : ∀ v, (List.lookup k (pass2_resolve_oids ns₁).2 = some v ↔
      List.lookup k (pass2_resolve_oids ns₂).2 = some v) := by
    intro v
    rw [hchar₁ k v, hchar₂ k v]
    constructor
    · rintro (h | h)
      · exact Or.inl h
      · exact Or.inr (hres12 k v h)
    · rintro (h | h)
      · exact Or.inl h
      · exact Or.inr (hres21 k v h)
  cases h₁ : List.lookup k (pass2_resolve_oids ns₁).2 with
  | none =>
    cases h₂ : List.lookup k (pass2_resolve_oids ns₂).2 with
    | none => rfl
    | some v₂ =>
      have := (htrans v₂).mpr h₂
      rw [h₁] at this
      exact absurd this (by simp)
  | some v₁ =>
    have := (htrans v₁).mp h₁
    rw [this]

/-! ### `_pass3_build_tree` (parser.py:91-107)

The comprehension of line 92 keeps only nodes that carry an `oid`, so
the built tree references exactly the resolved nodes: a never-resolved
declaration is silently absent from the forest (claim C3's
counterexample), while every resolved node appears (the theorem
below). -/

/-- `nodes_by_oid` (parser.py:92): an insertion-ordered dict keyed by
oid over the nodes that have one; a duplicate oid overwrites in
place. -/
def nodesByOid (ns : List PNode) : List (String × PNode) :=
  ns.foldl (fun m n =>
    match n.oid with
    | some o => dictSetN o n m
    | none => m) []

/-- The sort key `[int(i) for i in x.split('.')]` (parser.py:94).
`int` cannot raise here: `_pass2_resolve_oids` only writes oids built
from the numeric seed `'1'` and all-digit sub-identifiers, so every
segment parses. -/
def oidIntKey (oid : String) : List Int :=
  (splitOnC '.' oid.data).map (fun p => (pyInt p).getD 0)

/-- Stable insertion for `sorted(..., key=...)` on oid keys. -/
def insOid (x : String) : List String → List String
  | [] => [x]
  | y :: ys =>
    if lexLtInt (oidIntKey x) (oidIntKey y) then x :: y :: ys
    else y :: insOid x ys

def sortedOids (keys : List String) : List String :=
  keys.foldl (fun acc k => insOid k acc) []

/-- `parent_node['children'].append(node)` (parser.py:103), with the
children lists keyed by the parent's oid. -/
def appendChild (p c : String) : List (String × List String) → List (String × List String)
  | [] => [(p, [c])]
  | (k, v) :: t => if k == p then (k, v ++ [c]) :: t else (k, v) :: appendChild p c t

/-- One iteration of the `for oid in sorted_oids` loop
(parser.py:96-105): a dotted oid whose parent oid is present becomes
that parent's child, otherwise the node becomes a root. -/
def pass3Fold (byOid : List (String × PNode))
    (acc : List String × List (String × List String)) (oid : String) :
    List String × List (String × List String) :=
  if 1 < (splitOnC '.' oid.data).length then
    match List.lookup
        (⟨List.intercalate ['.'] (splitOnC '.' oid.data).dropLast⟩ : String) byOid with
    | some _ =>
      (acc.1, appendChild
        (⟨List.intercalate ['.'] (splitOnC '.' oid.data).dropLast⟩ : String) oid acc.2)
    | none => (acc.1 ++ [oid], acc.2)
  else (acc.1 ++ [oid], acc.2)

/-- `_pass3_build_tree` (parser.py:91-107), as the root oid list and
the per-parent child oid lists; the returned forest holds exactly the
nodes these two reference. -/
def pass3_build_tree (ns : List PNode) : List String × List (String × List String) :=
  (sortedOids ((nodesByOid ns).map Prod.fst)).foldl (pass3Fold (nodesByOid ns)) ([], [])

/-- The oids the built forest holds: the roots and every child. -/
def pass3Oids (ns : List PNode) : List String :=
  (pass3_build_tree ns).1 ++ ((pass3_build_tree ns).2.map Prod.snd).flatten

theorem mem_insOid_self (x : String) (l : List String) : x ∈ insOid x l := by
  induction l with
  | nil => simp [insOid]
  | cons y ys ih =>
    unfold insOid
    by_cases h : lexLtInt (oidIntKey x) (oidIntKey y) = true
    · rw [if_pos h]
      simp
    · rw [if_neg h]
      exact List.mem_cons_of_mem _ ih

theorem mem_insOid_mono (x k : String) (l : List String) (h : x ∈ l) :
    x ∈ insOid k l := by
  induction l with
  | nil => simp at h
  | cons y ys ih =>
    unfold insOid
    by_cases hk : lexLtInt (oidIntKey k) (oidIntKey y) = true
    · rw [if_pos hk]
      exact List.mem_cons_of_mem _ h
    · rw [if_neg hk]
      rcases List.mem_cons.mp h with h' | h'
      · exact List.mem_cons.mpr (Or.inl h')
      · exact List.mem_cons.mpr (Or.inr (ih h'))

theorem mem_sortedOids_aux (k : String) (keys : List String) :
    ∀ acc, (k ∈ acc ∨ k ∈ keys) →
      k ∈ keys.foldl (fun acc k => insOid k acc) acc := by
  induction keys with
  | nil =>
    intro acc hm
    rcases hm with h' | h'
    · simpa using h'
    · simp at h'
  | cons y ys ih =>
    intro acc hm
    simp only [List.foldl_cons]
    apply ih
    rcases hm with h' | h'
    · exact Or.inl (mem_insOid_mono k y acc h')
    · rcases List.mem_cons.mp h' with h'' | h''
      · exact Or.inl (h'' ▸ mem_insOid_self k acc)
      · exact Or.inr h''

theorem mem_sortedOids (keys : List String) (k : String) (h : k ∈ keys) :
    k ∈ sortedOids keys :=
  mem_sortedOids_aux k keys [] (Or.inr h)

theorem mem_appendChild (p c x : String) (m : List (String × List String))
    (h : x ∈ (m.map Prod.snd).flatten ∨ x = c) :
    x ∈ ((appendChild p c m).map Prod.snd).flatten := by
  induction m with
  | nil =>
    rcases h with h' | h'
    · simp at h'
    · simp [appendChild, h']
  | cons kv t ih =>
    cases kv with
    | mk a b =>
      unfold appendChild
      by_cases ha : a = p
      · rw [if_pos (by simp [ha])]
        simp only [List.map_cons, List.flatten_cons, List.mem_append, List.mem_singleton]
        rcases h with h' | h'
        · simp only [List.map_cons, List.flatten_cons, List.mem_append] at h'
          rcases h' with h'' | h''
          · exact Or.inl (Or.inl h'')
          · exact Or.inr h''
        · exact Or.inl (Or.inr h')
      · rw [if_neg (by simp [ha])]
        simp only [List.map_cons, List.flatten_cons, List.mem_append]
        rcases h with h' | h'
        · simp only [List.map_cons, List.flatten_cons, List.mem_append] at h'
          rcases h' with h'' | h''
          · exact Or.inl h''
          · exact Or.inr (ih (Or.inl h''))
        · exact Or.inr (ih (Or.inr h'))

theorem pass3Fold_keeps (byOid : List (String × PNode))
    (acc : List String × List (String × List String)) (o k : String)
    (h : k ∈ acc.1 ++ (acc.2.map Prod.snd).flatten) :
    k ∈ (pass3Fold byOid acc o).1 ++ ((pass3Fold byOid acc o).2.map Prod.snd).flatten := by
  unfold pass3Fold
  rcases List.mem_append.mp h with h' | h'
  · by_cases hp : 1 < (splitOnC '.' o.data).length
    · rw [if_pos hp]
      cases List.lookup (⟨List.intercalate ['.'] (splitOnC '.' o.data).dropLast⟩ : String) byOid with
      | some _ => exact List.mem_append.mpr (Or.inl h')
      | none => exact List.mem_append.mpr (Or.inl (List.mem_append.mpr (Or.inl h')))
    · rw [if_neg hp]
      exact List.mem_append.mpr (Or.inl (List.mem_append.mpr (Or.inl h')))
  · by_cases hp : 1 < (splitOnC '.' o.data).length
    · rw [if_pos hp]
      cases List.lookup (⟨List.intercalate ['.'] (splitOnC '.' o.data).dropLast⟩ : String) byOid with
      | some _ =>
        exact List.mem_append.mpr (Or.inr (mem_appendChild _ o k acc.2 (Or.inl h')))
      | none => exact List.mem_append.mpr (Or.inr h')
    · rw [if_neg hp]
      exact List.mem_append.mpr (Or.inr h')

theorem pass3Fold_adds (byOid : List (String × PNode))
    (acc : List String × List (String × List String)) (o : String) :
    o ∈ (pass3Fold byOid acc o).1 ++ ((pass3Fold byOid acc o).2.map Prod.snd).flatten := by
  unfold pass3Fold
  by_cases hp : 1 < (splitOnC '.' o.data).length
  · rw [if_pos hp]
    cases List.lookup (⟨List.intercalate ['.'] (splitOnC '.' o.data).dropLast⟩ : String) byOid with
    | some _ =>
      exact List.mem_append.mpr (Or.inr (mem_appendChild _ o o acc.2 (Or.inr rfl)))
    | none => exact List.mem_append.mpr (Or.inl (List.mem_append.mpr (Or.inr (by simp))))
  · rw [if_neg hp]
    exact List.mem_append.mpr (Or.inl (List.mem_append.mpr (Or.inr (by simp))))

theorem pass3_fold_mem (byOid : List (String × PNode)) (keys : List String) :
    ∀ (acc : List String × List (String × List String)) (k : String),
      (k ∈ acc.1 ++ (acc.2.map Prod.snd).flatten ∨ k ∈ keys) →
      k ∈ (keys.foldl (pass3Fold byOid) acc).1 ++
        ((keys.foldl (pass3Fold byOid) acc).2.map Prod.snd).flatten := by
  induction keys with
  | nil =>
    intro acc k hm
    rcases hm with h' | h'
    · simpa using h'
    · simp at h'
  | cons o os ih =>
    intro acc k hm
    simp only [List.foldl_cons]
    apply ih
    rcases hm with h' | h'
    · exact Or.inl (pass3Fold_keeps byOid acc o k h')
    · rcases List.mem_cons.mp h' with h'' | h''
      · exact Or.inl (h'' ▸ pass3Fold_adds byOid acc o)
      · exact Or.inr h''

/-- Every resolved node (every entry of `nodes_by_oid`) appears in the
built forest. -/
theorem pass3_keeps_resolved (ns : List PNode) (oid : String)
    (h : oid ∈ (nodesByOid ns).map Prod.fst) :
    oid ∈ pass3Oids ns :=
  pass3_fold_mem (nodesByOid ns) (sortedOids ((nodesByOid ns).map Prod.fst)) ([], []) oid
    (Or.inr (mem_sortedOids _ _ h))

end SmiV2

/-! ## Sortedness of the flat list (claim C8) -/

theorem lexLtInt_asymm (a b : List Int) (h : lexLtInt a b = true) :
    lexLtInt b a = false := by
  induction a generalizing b with
  | nil =>
    cases b with
    | nil => simp [lexLtInt] at h
    | cons y ys => simp [lexLtInt]
  | cons x xs ih =>
    cases b with
    | nil => simp [lexLtInt] at h
    | cons y ys =>
      unfold lexLtInt at h ⊢
      by_cases hxy : x < y
      · rw [if_neg (by omega : ¬ y < x), if_pos hxy]
      · rw [if_neg hxy] at h
        by_cases hyx : y < x
        · rw [if_pos hyx] at h
          simp at h
        · rw [if_neg hyx] at h
          rw [if_neg hyx, if_neg hxy]
          exact ih ys h

theorem lexLtInt_trans (a b c : List Int) (hab : lexLtInt a b = true)
    (hbc : lexLtInt b c = true) : lexLtInt a c = true := by
  induction a generalizing b c with
  | nil =>
    cases b with
    | nil => simp [lexLtInt] at hab
    | cons y ys =>
      cases c with
      | nil => simp [lexLtInt] at hbc
      | cons z zs => simp [lexLtInt]
  | cons x xs ih =>
    cases b with
    | nil => simp [lexLtInt] at hab
    | cons y ys =>
      cases c with
      | nil => simp [lexLtInt] at hbc
      | cons z zs =>
        unfold lexLtInt at hab hbc ⊢
        by_cases hxy : x < y <;> by_cases hyz : y < z
        · simp [show x < z by omega]
        · simp only [hyz, if_false] at hbc
          by_cases hzy : z < y
          · simp [hzy] at hbc
          · have : y = z := by omega
            subst this
            simp [hxy]
        · simp only [hxy, if_false] at hab
          by_cases hyx : y < x
          · simp [hyx] at hab
          · have : x = y := by omega
            subst this
            simp [hyz]
        · simp only [hxy, if_false] at hab
          simp only [hyz, if_false] at hbc
          by_cases hyx : y < x
          · simp [hyx] at hab
          · by_cases hzy : z < y
            · simp [hzy] at hbc
            · simp only [hyx, if_false] at hab
              simp only [hzy, if_false] at hbc
              have hxz : ¬ x < z := by omega
              have hzx : ¬ z < x := by omega
              simp only [hxz, if_false, hzx]
              exact ih ys zs hab hbc

theorem lexLtInt_eq_of_incomp (a b : List Int) (h1 : lexLtInt a b = false)
    (h2 : lexLtInt b a = false) : a = b := by
  induction a generalizing b with
  | nil =>
    cases b with
    | nil => rfl
    | cons y ys => simp [lexLtInt] at h1
  | cons x xs ih =>
    cases b with
    | nil => simp [lexLtInt] at h2
    | cons y ys =>
      unfold lexLtInt at h1 h2
      by_cases hxy : x < y
      · simp [hxy] at h1
      · by_cases hyx : y < x
        · simp [hyx, hxy] at h2
        · have : x = y := by omega
          subst this
          simp only [hxy, if_false, lt_irrefl] at h1 h2
          rw [ih ys (by simpa using h1) (by simpa using h2)]

theorem lexLtChar_asymm (a b : List Char) (h : lexLtChar a b = true) :
    lexLtChar b a = false := by
  induction a generalizing b with
  | nil =>
    cases b with
    | nil => simp [lexLtChar] at h
    | cons y ys => simp [lexLtChar]
  | cons x xs ih =>
    cases b with
    | nil => simp [lexLtChar] at h
    | cons y ys =>
      unfold lexLtChar at h ⊢
      by_cases hxy : x.toNat < y.toNat
      · have hyx : ¬(y.toNat < x.toNat) := by omega
        simp [hxy, hyx]
      · simp only [hxy, if_false] at h
        by_cases hyx : y.toNat < x.toNat
        · simp [hyx] at h
        · simp only [hyx, if_false] at h
          simp only [hyx, if_false, hxy, if_false]
          exact ih ys h

theorem lexLtChar_trans (a b c : List Char) (hab : lexLtChar a b = true)
    (hbc : lexLtChar b c = true) : lexLtChar a c = true := by
  induction a generalizing b c with
  | nil =>
    cases b with
    | nil => simp [lexLtChar] at hab
    | cons y ys =>
      cases c with
      | nil => simp [lexLtChar] at hbc
      | cons z zs => simp [lexLtChar]
  | cons x xs ih =>
    cases b with
    | nil => simp [lexLtChar] at hab
    | cons y ys =>
      cases c with
      | nil => simp [lexLtChar] at hbc
      | cons z zs =>
        unfold lexLtChar at hab hbc ⊢
        by_cases hxy : x.toNat < y.toNat <;> by_cases hyz : y.toNat < z.toNat
        · simp [show x.toNat < z.toNat by omega]
        · simp only [hyz, if_false] at hbc
          by_cases hzy : z.toNat < y.toNat
          · simp [hzy] at hbc
          · have : y.toNat = z.toNat := by omega
            simp only [hxy, if_true] at hab
            simp [show x.toNat < z.toNat by omega]
        · simp only [hxy, if_false] at hab
          by_cases hyx : y.toNat < x.toNat
          · simp [hyx] at hab
          · have : x.toNat = y.toNat := by omega
            simp [show x.toNat < z.toNat by omega]
        · simp only [hxy, if_false] at hab
          simp only [hyz, if_false] at hbc
          by_cases hyx : y.toNat < x.toNat
          · simp [hyx] at hab
          · by_cases hzy : z.toNat < y.toNat
            · simp [hzy] at hbc
            · simp only [hyx, if_false] at hab
              simp only [hzy, if_false] at hbc
              have hxz : ¬ x.toNat < z.toNat := by omega
              have hzx : ¬ z.toNat < x.toNat := by omega
              simp only [hxz, if_false, hzx]
              exact ih ys zs hab hbc

theorem keyLt_asymm (a b : FlatNode) (h : keyLt a b = true) : keyLt b a = false := by
  unfold keyLt at h ⊢
  by_cases hab : lexLtInt (oidKey a.oid) (oidKey b.oid) = true
  · rw [lexLtInt_asymm _ _ hab]
    simp [hab]
  · simp only [hab, Bool.false_eq_true, if_false] at h
    replace hab : lexLtInt (oidKey a.oid) (oidKey b.oid) = false := by
      simpa using hab
    rw [hab]
    by_cases hba : lexLtInt (oidKey b.oid) (oidKey a.oid) = true
    · simp [hba] at h
    · replace hba : lexLtInt (oidKey b.oid) (oidKey a.oid) = false := by simpa using hba
      rw [hba] at h ⊢
      simp only [Bool.false_eq_true, if_false] at h ⊢
      exact lexLtChar_asymm _ _ h

theorem keyLt_trans (a b c : FlatNode) (hab : keyLt a b = true)
    (hbc : keyLt b c = true) : keyLt a c = true := by
  unfold keyLt at hab hbc ⊢
  by_cases h1 : lexLtInt (oidKey a.oid) (oidKey b.oid) = true <;>
    by_cases h2 : lexLtInt (oidKey b.oid) (oidKey c.oid) = true
  · rw [lexLtInt_trans _ _ _ h1 h2]
    simp
  · replace h2 : lexLtInt (oidKey b.oid) (oidKey c.oid) = false := by simpa using h2
    rw [h2] at hbc
    simp only [Bool.false_eq_true, if_false] at hbc
    by_cases h3 : lexLtInt (oidKey c.oid) (oidKey b.oid) = true
    · simp [h3] at hbc
    · replace h3 : lexLtInt (oidKey c.oid) (oidKey b.oid) = false := by simpa using h3
      have hkey : oidKey b.oid = oidKey c.oid := lexLtInt_eq_of_incomp _ _ h2 h3
      rw [← hkey, h1]
      simp
  · replace h1 : lexLtInt (oidKey a.oid) (oidKey b.oid) = false := by simpa using h1
    rw [h1] at hab
    simp only [Bool.false_eq_true, if_false] at hab
    by_cases h3 : lexLtInt (oidKey b.oid) (oidKey a.oid) = true
    · simp [h3] at hab
    · replace h3 : lexLtInt (oidKey b.oid) (oidKey a.oid) = false := by simpa using h3
      have hkey : oidKey a.oid = oidKey b.oid := lexLtInt_eq_of_incomp _ _ h1 h3
      rw [hkey, h2]
      simp
  · replace h1 : lexLtInt (oidKey a.oid) (oidKey b.oid) = false := by simpa using h1
    replace h2 : lexLtInt (oidKey b.oid) (oidKey c.oid) = false := by simpa using h2
    rw [h1] at hab
    rw [h2] at hbc
    simp only [Bool.false_eq_true, if_false] at hab hbc
    by_cases h3 : lexLtInt (oidKey b.oid) (oidKey a.oid) = true
    · simp [h3] at hab
    · by_cases h4 : lexLtInt (oidKey c.oid) (oidKey b.oid) = true
      · simp [h4] at hbc
      · replace h3 : lexLtInt (oidKey b.oid) (oidKey a.oid) = false := by simpa using h3
        replace h4 : lexLtInt (oidKey c.oid) (oidKey b.oid) = false := by simpa using h4
        rw [h3] at hab
        rw [h4] at hbc
        simp only [Bool.false_eq_true, if_false] at hab hbc
        have hkab : oidKey a.oid = oidKey b.oid := lexLtInt_eq_of_incomp _ _ h1 h3
        have hkbc : oidKey b.oid = oidKey c.oid := lexLtInt_eq_of_incomp _ _ h2 h4
        rw [hkab, hkbc]
        have : lexLtInt (oidKey c.oid) (oidKey c.oid) = false := by
          by_cases hc : lexLtInt (oidKey c.oid) (oidKey c.oid) = true
          · have := lexLtInt_asymm _ _ hc
            rw [this] at hc
            simp at hc
          · simpa using hc
        rw [this]
        simp only [Bool.false_eq_true, if_false]
        exact lexLtChar_trans _ _ _ hab hbc

theorem mem_insertA (w x : FlatNode) (l : List FlatNode) (h : w ∈ insertA x l) :
    w = x ∨ w ∈ l := by
  induction l with
  | nil => simpa [insertA] using h
  | cons y ys ih =>
    unfold insertA at h
    by_cases hk : keyLt x y = true
    · rw [hk] at h
      simp only [if_true] at h
      rcases List.mem_cons.mp h with h' | h'
      · exact Or.inl h'
      · exact Or.inr h'
    · replace hk : keyLt x y = false := by simpa using hk
      rw [hk] at h
      simp only [Bool.false_eq_true, if_false] at h
      rcases List.mem_cons.mp h with h' | h'
      · exact Or.inr (by simp [h'])
      · rcases ih h' with h'' | h''
        · exact Or.inl h''
        · exact Or.inr (by simp [h''])

/-- The output order relation: `b` is not strictly below `a`. -/
def keyLe (a b : FlatNode) : Prop := keyLt b a = false

theorem pairwise_insertA (x : FlatNode) (l : List FlatNode)
    (h : List.Pairwise keyLe l) : List.Pairwise keyLe (insertA x l) := by
  induction l with
  | nil => simp [insertA, List.pairwise_cons]
  | cons y ys ih =>
    rcases List.pairwise_cons.mp h with ⟨hy, hys⟩
    unfold insertA
    by_cases hk : keyLt x y = true
    · rw [hk]
      simp only [if_true]
      refine List.pairwise_cons.mpr ⟨?_, h⟩
      intro z hz
      rcases List.mem_cons.mp hz with hz' | hz'
      · rw [hz']
        exact keyLt_asymm _ _ hk
      · show keyLt z x = false
        by_cases hzx : keyLt z x = true
        · have hzy := keyLt_trans _ _ _ hzx hk
          have := hy z hz'
          rw [this] at hzy
          simp at hzy
        · simpa using hzx
    · replace hk : keyLt x y = false := by simpa using hk
      rw [hk]
      simp only [Bool.false_eq_true, if_false]
      refine List.pairwise_cons.mpr ⟨?_, ih hys⟩
      intro z hz
      rcases mem_insertA z x ys hz with hz' | hz'
      · rw [hz']
        exact hk
      · exact hy z hz'

theorem pairwise_pySortNodes (l : List FlatNode) :
    List.Pairwise keyLe (pySortNodes l) := by
  unfold pySortNodes
  suffices h : ∀ acc, List.Pairwise keyLe acc →
      List.Pairwise keyLe (l.foldl (fun acc x => insertA x acc) acc) by
    exact h [] (by simp)
  induction l with
  | nil => intro acc hacc; simpa using hacc
  | cons x xs ih =>
    intro acc hacc
    exact ih (insertA x acc) (pairwise_insertA x acc hacc)

theorem flatten_nodes_sorted (modName : String) (doc : PDoc) :
    List.Pairwise keyLe (flatten_nodes modName doc) :=
  pairwise_pySortNodes _

/-! ## The search cap (claim C9) -/

theorem searchModule_lt_cap (term : List Char) (ns : List FlatNode)
    (hits : List FlatNode) (h : hits.length < 200) :
    (searchModule term hits ns).length ≤ 200 := by
  induction ns generalizing hits with
  | nil => simp [searchModule]; omega
  | cons n rest ih =>
    unfold searchModule
    by_cases hm : containsSeq term (hayOf n) = true
    · rw [hm]
      simp only [if_true]
      by_cases hc : 200 ≤ (hits ++ [n]).length
      · rw [if_pos hc]
        simp only [List.length_append, List.length_cons, List.length_nil]
        omega
      · rw [if_neg hc]
        exact ih (hits ++ [n]) (by simp at hc ⊢; omega)
    · replace hm : containsSeq term (hayOf n) = false := by simpa using hm
      rw [hm]
      simp only [Bool.false_eq_true, if_false]
      rw [if_neg (by omega : ¬ 200 ≤ hits.length)]
      exact ih hits h

theorem searchModule_ge_cap (term : List Char) (ns : List FlatNode)
    (hits : List FlatNode) (h : 200 ≤ hits.length) :
    (searchModule term hits ns).length ≤ hits.length + 1 := by
  cases ns with
  | nil => simp [searchModule]
  | cons n rest =>
    unfold searchModule
    by_cases hm : containsSeq term (hayOf n) = true
    · rw [hm]
      simp only [if_true]
      rw [if_pos (by simp; omega)]
      simp
    · replace hm : containsSeq term (hayOf n) = false := by simpa using hm
      rw [hm]
      simp only [Bool.false_eq_true, if_false]
      rw [if_pos h]
      omega

theorem search_fold_bound (term : List Char) (l : List (String × PDoc))
    (hits : List FlatNode) :
    (l.foldl (fun hs entry => searchModule term hs (flatten_nodes entry.1 entry.2))
        hits).length ≤ 199 + l.length ∨
    (l.foldl (fun hs entry => searchModule term hs (flatten_nodes entry.1 entry.2))
        hits).length ≤ hits.length + l.length := by
  induction l generalizing hits with
  | nil => right; simp
  | cons m rest ih =>
    simp only [List.foldl_cons, List.length_cons]
    rcases ih (searchModule term hits (flatten_nodes m.1 m.2)) with h | h
    · left; omega
    · by_cases hlt : hits.length < 200
      · have h1 : (searchModule term hits (flatten_nodes m.1 m.2)).length ≤ 200 :=
          searchModule_lt_cap term _ hits hlt
        left; omega
      · have h1 : (searchModule term hits (flatten_nodes m.1 m.2)).length ≤
            hits.length + 1 :=
          searchModule_ge_cap term _ hits (by omega)
        right; omega

theorem search_all_bound (term : String) (compiled : List (String × PDoc)) :
    (search_all term compiled).length ≤ 199 + compiled.length := by
  unfold search_all
  by_cases h : (pyLower (pyStrip term.data)).isEmpty = true
  · rw [if_pos h]
    simp
  · rw [if_neg h]
    rcases search_fold_bound (pyLower (pyStrip term.data)) compiled [] with h' | h'
    · exact h'
    · simp only [List.length_nil, Nat.zero_add] at h'
      omega

theorem searchModule_mem (term : List Char) (ns : List FlatNode)
    (hits : List FlatNode) (n : FlatNode) (h : n ∈ searchModule term hits ns) :
    n ∈ hits ∨ containsSeq term (hayOf n) = true := by
  induction ns generalizing hits with
  | nil => exact Or.inl (by simpa [searchModule] using h)
  | cons m rest ih =>
    unfold searchModule at h
    by_cases hm : containsSeq term (hayOf m) = true
    · rw [hm] at h
      simp only [if_true] at h
      by_cases hc : 200 ≤ (hits ++ [m]).length
      · rw [if_pos hc] at h
        rcases List.mem_append.mp h with h' | h'
        · exact Or.inl h'
        · right
          rw [List.mem_singleton.mp h']
          exact hm
      · rw [if_neg hc] at h
        rcases ih (hits ++ [m]) h with h' | h'
        · rcases List.mem_append.mp h' with h'' | h''
          · exact Or.inl h''
          · right
            rw [List.mem_singleton.mp h'']
            exact hm
        · exact Or.inr h'
    · replace hm : containsSeq term (hayOf m) = false := by simpa using hm
      rw [hm] at h
      simp only [Bool.false_eq_true, if_false] at h
      by_cases hc : 200 ≤ hits.length
      · rw [if_pos hc] at h
        exact Or.inl h
      · rw [if_neg hc] at h
        exact ih hits h

theorem search_all_sound (term : String) (compiled : List (String × PDoc))
    (n : FlatNode) (h : n ∈ search_all term compiled) :
    containsSeq (pyLower (pyStrip term.data)) (hayOf n) = true := by
  unfold search_all at h
  by_cases he : (pyLower (pyStrip term.data)).isEmpty = true
  · rw [if_pos he] at h
    simp at h
  · rw [if_neg he] at h
    suffices hgen : ∀ (l : List (String × PDoc)) (hits : List FlatNode),
        n ∈ l.foldl (fun hs entry =>
          searchModule (pyLower (pyStrip term.data)) hs
            (flatten_nodes entry.1 entry.2)) hits →
        n ∈ hits ∨ containsSeq (pyLower (pyStrip term.data)) (hayOf n) = true by
      rcases hgen compiled [] h with h' | h'
      · simp at h'
      · exact h'
    intro l
    induction l with
    | nil => intro hits hmem; exact Or.inl (by simpa using hmem)
    | cons m rest ih =>
      intro hits hmem
      simp only [List.foldl_cons] at hmem
      rcases ih _ hmem with h' | h'
      · exact searchModule_mem _ _ _ _ h'
      · exact Or.inr h'

/-! ## Unresolved declarations are kept (claim C3) -/

theorem arcStep_append (acc : List (List Char)) (tok : List Char) :
    ∃ d, arcStep acc tok = acc ++ d := by
  unfold arcStep
  by_cases h1 : pyIsDigit (parse_arc_token tok).1 = true
  · rw [if_pos h1]
    exact ⟨_, rfl⟩
  · rw [if_neg h1]
    by_cases h2 : isDottedNum (parse_arc_token tok).1 = true
    · rw [if_pos h2]
      exact ⟨_, rfl⟩
    · rw [if_neg h2]
      cases (parse_arc_token tok).2 with
      | none => exact ⟨_, rfl⟩
      | some n => exact ⟨_, rfl⟩

theorem arcFold_append (rest : List (List Char)) (acc : List (List Char)) :
    ∃ d, rest.foldl arcStep acc = acc ++ d := by
  induction rest generalizing acc with
  | nil => exact ⟨[], by simp⟩
  | cons t ts ih =>
    rcases arcStep_append acc t with ⟨d1, h1⟩
    rcases ih (arcStep acc t) with ⟨d2, h2⟩
    exact ⟨d1 ++ d2, by rw [List.foldl_cons, h2, h1, List.append_assoc]⟩

theorem dictSetN_lookup_self {β : Type} (k : String) (v : β) (l : List (String × β)) :
    List.lookup k (dictSetN k v l) = some v := by
  induction l with
  | nil => simp [dictSetN, List.lookup]
  | cons x xs ih =>
    cases x with
    | mk a b =>
      unfold dictSetN
      by_cases he : a = k
      · subst he
        rw [if_pos (beq_self_eq_true a)]
        simp [List.lookup]
      · simp only [show (a == k) = false by simp [he], Bool.false_eq_true, if_false]
        rw [List.lookup]
        simp only [show (k == a) = false by simp [Ne.symm he], Bool.false_eq_true, if_false]
        exact ih

theorem dictSetN_lookup_isSome {β : Type} (k k' : String) (v : β) (l : List (String × β))
    (h : (List.lookup k' l).isSome = true) :
    (List.lookup k' (dictSetN k v l)).isSome = true := by
  induction l with
  | nil => simp [List.lookup] at h
  | cons x xs ih =>
    cases x with
    | mk a b =>
      unfold dictSetN
      by_cases he : a = k
      · subst he
        rw [if_pos (beq_self_eq_true a)]
        rw [List.lookup] at h ⊢
        by_cases hk : k' = a
        · simp [hk]
        · simp only [show (k' == a) = false by simp [hk], Bool.false_eq_true, if_false] at h ⊢
          exact h
      · simp only [show (a == k) = false by simp [he], Bool.false_eq_true, if_false]
        rw [List.lookup] at h ⊢
        by_cases hk : k' = a
        · simp [hk]
        · simp only [show (k' == a) = false by simp [hk], Bool.false_eq_true, if_false] at h ⊢
          exact ih h

theorem add_node_keeps_name (st : PState) (name parentBody klass synT descT : String)
    (st' : PState) (h : add_node st name parentBody klass synT descT = some st') :
    ∃ nd : MNode, List.lookup name st'.nodes = some nd ∧
      resolve_braced_oid parentBody st.sym2oid = some nd.oid := by
  simp only [add_node] at h
  cases hr : resolve_braced_oid parentBody st.sym2oid with
  | none =>
    rw [hr] at h
    simp at h
  | some oid =>
    rw [hr] at h
    simp only [Option.some.injEq] at h
    subst h
    exact ⟨_, dictSetN_lookup_self name _ st.nodes, rfl⟩

theorem add_node_keeps_old (st : PState) (name parentBody klass synT descT : String)
    (st' : PState) (k : String)
    (h : add_node st name parentBody klass synT descT = some st')
    (hk : (List.lookup k st.nodes).isSome = true) :
    (List.lookup k st'.nodes).isSome = true := by
  simp only [add_node] at h
  cases hr : resolve_braced_oid parentBody st.sym2oid with
  | none =>
    rw [hr] at h
    simp at h
  | some oid =>
    rw [hr] at h
    simp only [Option.some.injEq] at h
    subst h
    exact dictSetN_lookup_isSome name k _ st.nodes hk

theorem resolve_symbolic_parent (body : String) (sym2oid : List (String × String))
    (t0 : List Char) (rest : List (List Char))
    (htok : arcTokens body = t0 :: rest)
    (hnd : isDottedNum (parse_arc_token t0).1 = false)
    (hdig : pyIsDigit (parse_arc_token t0).1 = false)
    (hbase : truthyOpt (parentBase (parse_arc_token t0).1 sym2oid) = none)
    (hne : ((parse_arc_token t0).1).isEmpty = false) :
    ∃ oid : String, resolve_braced_oid body sym2oid = some oid ∧
      leadsWith (parse_arc_token t0).1 oid.data = true := by
  have hparts : (pySplitWs (replaceSeq ['\n'] [' '] body.data)).isEmpty = false := by
    cases hl : pySplitWs (replaceSeq ['\n'] [' '] body.data) with
    | nil =>
      exfalso
      have he : arcTokens body = [] := by
        unfold arcTokens
        rw [hl]
        rfl
      rw [he] at htok
      exact List.noConfusion htok
    | cons a t => rfl
  have hpp : parentPath (parse_arc_token t0).1 sym2oid = [(parse_arc_token t0).1] := by
    unfold parentPath
    rw [if_neg (by simp [hnd]), if_neg (by simp [hdig]), hbase]
  rcases arcFold_append rest [(parse_arc_token t0).1] with ⟨d, hd⟩
  unfold resolve_braced_oid
  rw [if_neg (by simp [hparts]), htok]
  refine ⟨_, rfl, ?_⟩
  rw [hpp, hd]
  show leadsWith (parse_arc_token t0).1
    (List.intercalate ['.']
      (([(parse_arc_token t0).1] ++ d).filter (fun s => !s.isEmpty))) = true
  rw [show ([(parse_arc_token t0).1] ++ d) = (parse_arc_token t0).1 :: d from rfl]
  rw [List.filter_cons]
  simp only [hne, Bool.not_false, if_true]
  cases hdf : d.filter (fun s => !s.isEmpty) with
  | nil =>
    rw [intercalate_single]
    have := leadsWith_self_append (parse_arc_token t0).1 []
    rwa [List.append_nil] at this
  | cons y t =>
    rw [intercalate_cons_cons, List.append_assoc]
    exact leadsWith_self_append _ _

/-! ## Enum extraction, general shape (claim C10) -/

/-- The per-item step of `_extract_enums_from_syntax`: strip the item
and attempt the `label(number)` match. -/
def enumOfItem (item : List Char) : Option (String × String) :=
  (matchEnumPair (pyStrip item)).map (fun lp => ((⟨lp.1⟩ : String), (⟨lp.2⟩ : String)))

/-- The whole item loop of `_extract_enums_from_syntax` over an item
list. -/
def enumsOfItems (items : List (List Char)) : List (String × String) :=
  items.filterMap enumOfItem

theorem enumsOfItems_append (l1 l2 : List (List Char)) :
    enumsOfItems (l1 ++ l2) = enumsOfItems l1 ++ enumsOfItems l2 := by
  simp [enumsOfItems, List.filterMap_append]

theorem enumsOfItems_skip (l1 l2 : List (List Char)) (b : List Char)
    (hb : enumOfItem b = none) :
    enumsOfItems (l1 ++ b :: l2) = enumsOfItems (l1 ++ l2) := by
  simp [enumsOfItems, List.filterMap_append, List.filterMap_cons, hb]

theorem extract_enums_eq (syn : String) (body : List Char)
    (hne : (syn == "") = false) (hb : enumSetSearch syn.data = some body) :
    extract_enums_from_syntax syn = enumsOfItems (splitOnC ',' body) := by
  unfold extract_enums_from_syntax
  rw [hne]
  simp only [Bool.false_eq_true, if_false]
  rw [hb]
  show List.filterMap _ (List.map pyStrip (splitOnC ',' body)) = _
  rw [List.filterMap_map]
  rfl

/-! ## Claim fixtures -/

/-- The declaration set of the order-dependence counterexample, child
(`b`, defined below `a`) first in the text. -/
def c6ModChildFirst : String :=
  "M DEFINITIONS ::= BEGIN\nb OBJECT IDENTIFIER ::= \x7b a 1 \x7d\n" ++
  "a OBJECT IDENTIFIER ::= \x7b 1 3 \x7d\nEND\n"

/-- The same two declarations with the parent first. -/
def c6ModParentFirst : String :=
  "M DEFINITIONS ::= BEGIN\na OBJECT IDENTIFIER ::= \x7b 1 3 \x7d\n" ++
  "b OBJECT IDENTIFIER ::= \x7b a 1 \x7d\nEND\n"

def c6NodeA : SmiV2.PNode :=
  { name := "a", klass := "OBJECT IDENTIFIER", oidDef := "iso 3",
    oid := none, symOid := none }

def c6NodeB : SmiV2.PNode :=
  { name := "b", klass := "OBJECT IDENTIFIER", oidDef := "a 1",
    oid := none, symOid := none }

def c5Node : SmiV2.PNode :=
  { name := "foo", klass := "OBJECT IDENTIFIER", oidDef := "iso 3",
    oid := none, symOid := none }

/-- A declaration that resolves (`iso 3`). -/
def c3NodeA : SmiV2.PNode :=
  { name := "a", klass := "OBJECT IDENTIFIER", oidDef := "iso 3",
    oid := none, symOid := none }

/-- A declaration whose parent `ghost` never resolves. -/
def c3NodeU : SmiV2.PNode :=
  { name := "u", klass := "OBJECT IDENTIFIER", oidDef := "ghost 1",
    oid := none, symOid := none }

/-- The specification's wording of "fully numeric oid": nonempty, and
every dot-segment all digits. -/
def allNumericOid (n : FlatNode) : Bool :=
  !n.oid.data.isEmpty && (splitOnC '.' n.oid.data).all pyIsDigit

/-- A module document holding one fully numeric node (`b`, oid `2.3`)
and one node with a symbolic segment (`a`, oid `1.z`). -/
def c8Doc : PDoc :=
  { moduleName := "M",
    nodes := [("b", plainOidNode "b" "2.3"), ("a", plainOidNode "a" "1.z")] }

/-- The single search hit inside `bigDoc2`. -/
def c9Node : FlatNode :=
  { module := "M2", name := "x", oid := "9", symOid := "",
    klass := "OBJECT IDENTIFIER", synText := "", descr := "", enums := [] }

/-! ## The claims -/

set_option maxRecDepth 20000 in
/-- C1: parsing the example module (`internet ::= \x7b iso 3 6 1 \x7d`,
`mib-2 ::= \x7b internet 2 1 \x7d`, `sysDescr OBJECT-TYPE ... ::=
\x7b mib-2 1 1 \x7d`) resolves `sysDescr` to `1.3.6.1.2.1.1.1` — one
segment longer than the path `1.3.6.1.2.1.1` stated in the
specification, which drops one of the two trailing `1` arcs. -/
theorem claim_C1 :
    nodeOid (parse_mib_text_nodes specExampleModule) "sysDescr"
      = some "1.3.6.1.2.1.1.1" := by decide

set_option maxRecDepth 20000 in
/-- C1 counterexample: the specification's value `1.3.6.1.2.1.1` is not
the oid the parser produces for `sysDescr`. -/
theorem claim_C1_counterexample :
    nodeOid (parse_mib_text_nodes specExampleModule) "sysDescr"
      ≠ some "1.3.6.1.2.1.1" := by decide

/-- C2: parsing fails (returns the no-module signal `none`) exactly
when the *preprocessed* text — comments stripped, `-\n` and `\r`
removed — contains no `<ident> DEFINITIONS ::= BEGIN` header.  The
specification's claim quantifies over the raw input text, which is
wrong: a header present only in the raw text (e.g. inside a comment)
does not produce a result. -/
theorem claim_C2 (t : String) :
    (SmiV2.parse t).isSome = true ↔ SmiV2.HeaderSpec (SmiV2.preprocess t) :=
  SmiV2.parse_isSome_iff t

/-- C2 counterexample: the raw text `-- M DEFINITIONS ::= BEGIN`
contains a header (it satisfies the header pattern), yet parsing
returns the no-module signal, because comment stripping removes the
header before the search. -/
theorem claim_C2_counterexample :
    SmiV2.parse "-- M DEFINITIONS ::= BEGIN" = none ∧
    SmiV2.HeaderSpec ("-- M DEFINITIONS ::= BEGIN".data) := by
  refine ⟨by decide, "-- ".data, "M".data, " ".data, " ".data, " ".data, [],
    ?_, ?_, ?_, ?_, ?_, ?_, ?_⟩ <;> decide

/-- C3: corrected — the never-discarded guarantee holds only for
mib_browser.py's pipeline; parser.py's tree drops unresolved nodes.
(1) Whenever `add_node` succeeds, the declared name maps to a node in
the output whose oid is exactly the resolver's best-effort path, and
every previously present node remains present.  (2) When the parent
symbol never resolves (not numeric, not in the symbol table, not a
well-known base arc), the resolver still returns a path, and that path
begins with the remaining symbolic segment.  (3) In parser.py,
`_pass3_build_tree` keeps exactly the resolved declarations: every
node with an oid appears in the built forest — and only those (a
declaration that never resolves gets no mixed symbolic path there; it
is silently absent from the tree, see the counterexample). -/
theorem claim_C3 :
    (∀ (st : PState) (name parentBody klass synT descT : String) (st' : PState),
      add_node st name parentBody klass synT descT = some st' →
      (∃ nd : MNode, List.lookup name st'.nodes = some nd ∧
        resolve_braced_oid parentBody st.sym2oid = some nd.oid) ∧
      (∀ k : String, (List.lookup k st.nodes).isSome = true →
        (List.lookup k st'.nodes).isSome = true)) ∧
    (∀ (body : String) (sym2oid : List (String × String)) (t0 : List Char)
        (rest : List (List Char)),
      arcTokens body = t0 :: rest →
      isDottedNum (parse_arc_token t0).1 = false →
      pyIsDigit (parse_arc_token t0).1 = false →
      truthyOpt (parentBase (parse_arc_token t0).1 sym2oid) = none →
      ((parse_arc_token t0).1).isEmpty = false →
      ∃ oid : String, resolve_braced_oid body sym2oid = some oid ∧
        leadsWith (parse_arc_token t0).1 oid.data = true) ∧
    (∀ (ns : List SmiV2.PNode) (oid : String),
      oid ∈ (SmiV2.nodesByOid ns).map Prod.fst →
      oid ∈ SmiV2.pass3Oids ns) := by
  refine ⟨?_, ?_, ?_⟩
  · intro st name pb kl sy de st' h
    exact ⟨add_node_keeps_name st name pb kl sy de st' h,
      fun k' hk => add_node_keeps_old st name pb kl sy de st' k' h hk⟩
  · intro body m t0 rest h1 h2 h3 h4 h5
    exact resolve_symbolic_parent body m t0 rest h1 h2 h3 h4 h5
  · intro ns oid h
    exact SmiV2.pass3_keeps_resolved ns oid h

theorem claim_C3_witness :
    (∃ st' : PState,
      add_node { sym2oid := [], nodes := [] } "n" "foo 1" "K" "" "" = some st' ∧
      ∃ nd : MNode, List.lookup "n" st'.nodes = some nd ∧
        resolve_braced_oid "foo 1" [] = some nd.oid) ∧
    (∃ oid : String, resolve_braced_oid "x 5" [] = some oid ∧
      leadsWith (parse_arc_token "x".data).1 oid.data = true) ∧
    "1.3" ∈ SmiV2.pass3Oids (SmiV2.pass2_resolve_oids [c3NodeA, c3NodeU]).1 := by
  refine ⟨?_, ?_, ?_⟩
  · cases hadd : add_node { sym2oid := [], nodes := [] } "n" "foo 1" "K" "" "" with
    | none => exact absurd hadd (by decide)
    | some st' =>
      exact ⟨st', rfl, (claim_C3.1 _ "n" "foo 1" "K" "" "" st' hadd).1⟩
  · exact claim_C3.2.1 "x 5" [] "x".data [['5']] (by decide) (by decide) (by decide)
      (by decide) (by decide)
  · exact claim_C3.2.2 (SmiV2.pass2_resolve_oids [c3NodeA, c3NodeU]).1 "1.3" (by decide)

/-- C3 counterexample: parser.py silently discards a never-resolving
declaration from its tree output.  After `_pass2_resolve_oids`, the
declaration set still holds `u` (parent `ghost`, never resolved, oid
unset) next to the resolved `a` (oid `1.3`); `_pass3_build_tree` then
builds a forest referencing only the oid `1.3` — no node of the tree
is `u`, and no mixed symbolic path for `u` exists anywhere in it. -/
theorem claim_C3_counterexample :
    (SmiV2.pass2_resolve_oids [c3NodeA, c3NodeU]).1.map (fun n => (n.name, n.oid))
        = [("a", some "1.3"), ("u", none)] ∧
    SmiV2.pass3_build_tree (SmiV2.pass2_resolve_oids [c3NodeA, c3NodeU]).1
        = (["1.3"], []) ∧
    SmiV2.pass3Oids (SmiV2.pass2_resolve_oids [c3NodeA, c3NodeU]).1 = ["1.3"] ∧
    (List.lookup "1.3"
        (SmiV2.nodesByOid (SmiV2.pass2_resolve_oids [c3NodeA, c3NodeU]).1)).map
        (fun n => n.name) = some "a" := by
  exact ⟨by decide, by decide, by decide, by decide⟩

/-- C4: oid resolution is **not** total — the specification's claim
that no input raises is false.  On the arc body `","` the token list
`tokens` is empty while `parts` is not, and the Python indexes
`tokens[0]`, raising `IndexError`; the embedding returns `none` exactly
at that raise site. -/
theorem claim_C4 : resolve_braced_oid "," [] = none := by decide

/-- C5: the fixed-point resolver terminates within `N + 1` passes for
`N` declarations: (1) any pass that reports progress strictly increases
the number of resolved declarations, (2) that number never exceeds `N`,
and (3) after the `N + 1`-fuel loop, one more full pass makes no new
resolution (the loop has stopped at the fixed point). -/
theorem claim_C5 (ns : List SmiV2.PNode) (m : List (String × String)) :
    ((SmiV2.runPass ns m).2.2 = true →
      SmiV2.rcount ns < SmiV2.rcount (SmiV2.runPass ns m).1) ∧
    SmiV2.rcount ns ≤ ns.length ∧
    SmiV2.runPass (SmiV2.resolveLoop (ns.length + 1) ns m).1
        (SmiV2.resolveLoop (ns.length + 1) ns m).2
      = ((SmiV2.resolveLoop (ns.length + 1) ns m).1,
         (SmiV2.resolveLoop (ns.length + 1) ns m).2, false) := by
  refine ⟨?_, SmiV2.rcount_le_length ns, SmiV2.pass2_fixed_point ns m⟩
  intro h
  have h2 := SmiV2.runPassAux_strict ns [] m h
  rw [SmiV2.rcount_nil] at h2
  show SmiV2.rcount ns < SmiV2.rcount (SmiV2.runPassAux [] ns m false).1
  omega

theorem claim_C5_witness :
    (SmiV2.runPass [c5Node] [("iso", "1")]).2.2 = true ∧
    SmiV2.rcount [c5Node] < SmiV2.rcount (SmiV2.runPass [c5Node] [("iso", "1")]).1 :=
  ⟨by decide, (claim_C5 [c5Node] [("iso", "1")]).1 (by decide)⟩

/-- C6: for the fixed-point resolver of parser.py the claim holds —
resolution is order-independent: permuting the declaration list (names
distinct, `iso` not redeclared, oids initially unset) leaves the
resolved name-to-oid mapping unchanged.  The single-pass resolver of
mib_browser.py, also cited by the claim, is order-*dependent* (see the
counterexample), so the claim as stated over both sources is
corrected to this one. -/
theorem claim_C6 (ns₁ ns₂ : List SmiV2.PNode) (hperm : ns₁.Perm ns₂)
    (hnd : (ns₁.map (fun n => n.name)).Nodup)
    (hiso : "iso" ∉ ns₁.map (fun n => n.name))
    (hinit : ∀ n ∈ ns₁, n.oid = none) (k : String) :
    List.lookup k (SmiV2.pass2_resolve_oids ns₁).2 =
      List.lookup k (SmiV2.pass2_resolve_oids ns₂).2 :=
  SmiV2.pass2_order_independent ns₁ ns₂ hperm hnd hiso hinit k

theorem claim_C6_witness :
    [c6NodeB, c6NodeA].Perm [c6NodeA, c6NodeB] ∧
    ([c6NodeB, c6NodeA].map (fun n => n.name)).Nodup ∧
    "iso" ∉ [c6NodeB, c6NodeA].map (fun n => n.name) ∧
    (∀ n ∈ [c6NodeB, c6NodeA], n.oid = none) ∧
    List.lookup "b" (SmiV2.pass2_resolve_oids [c6NodeB, c6NodeA]).2 =
      List.lookup "b" (SmiV2.pass2_resolve_oids [c6NodeA, c6NodeB]).2 := by
  refine ⟨List.Perm.swap c6NodeA c6NodeB [], by decide, by decide, by decide, ?_⟩
  exact claim_C6 [c6NodeB, c6NodeA] [c6NodeA, c6NodeB]
    (List.Perm.swap c6NodeA c6NodeB []) (by decide) (by decide) (by decide) "b"

set_option maxRecDepth 20000 in
/-- C6 counterexample: the single-pass resolver of
`parse_mib_text` (mib_browser.py) is order-dependent: the same two
declarations yield `b = a.1` when the child is declared first but
`b = 1.3.1` when the parent is declared first. -/
theorem claim_C6_counterexample :
    nodeOid (parse_mib_text_nodes c6ModChildFirst) "b" = some "a.1" ∧
    nodeOid (parse_mib_text_nodes c6ModParentFirst) "b" = some "1.3.1" ∧
    nodeOid (parse_mib_text_nodes c6ModChildFirst) "b" ≠
      nodeOid (parse_mib_text_nodes c6ModParentFirst) "b" := by
  refine ⟨by decide, by decide, by decide⟩

/-- C7: comment stripping equals per-line truncation at `--` applied
separately to each stretch *between* quoted spans (not to end of line
across a quote), and every complete quoted span appears verbatim in the
output — quoted content is never altered.  The specification's "removes
text to end of line" is corrected: removal stops at the next quoted
string when one starts before the line ends. -/
theorem claim_C7 (cs : List Char) :
    stripCommentsL cs =
      ((splitQuotes cs).1.map (fun pq => stripBetween pq.1 ++ pq.2)).flatten
        ++ stripBetween (splitQuotes cs).2 ∧
    (∀ pq ∈ (splitQuotes cs).1, ∃ u v, stripCommentsL cs = u ++ pq.2 ++ v) := by
  constructor
  · have hf : (fun pq : List Char × List Char => stripLC pq.1 ++ pq.2)
        = (fun pq => stripBetween pq.1 ++ pq.2) := by
      funext pq
      rw [stripLC_eq_stripBetween]
    rw [stripCommentsL_eq, hf, stripLC_eq_stripBetween]
  · intro pq hm
    exact quoted_span_infix cs pq hm

theorem claim_C7_witness :
    ((['x', ' ', '-', '-', ' '], ['\"', 'c', '\"']) : List Char × List Char)
        ∈ (splitQuotes "x -- \"c\" y".data).1 ∧
    ∃ u v, stripCommentsL "x -- \"c\" y".data = u ++ ['\"', 'c', '\"'] ++ v :=
  ⟨by decide, (claim_C7 "x -- \"c\" y".data).2
    ((['x', ' ', '-', '-', ' '], ['\"', 'c', '\"']) : List Char × List Char)
    (by decide)⟩

/-- C7 counterexample: a `--` outside quotes does *not* remove text to
end of line: in `x -- "c" y` the quoted string and the text after it
survive, where to-end-of-line removal would leave `x `. -/
theorem claim_C7_counterexample :
    strip_comments "x -- \"c\" y" = "x \"c\" y" ∧
    strip_comments "x -- \"c\" y" ≠ "x " :=
  ⟨by decide, by decide⟩

/-- C8: the flat node list is sorted under the key the code actually
uses — segment-by-segment integer comparison where a non-numeric
segment counts as the sentinel `10^9` *in its position* (ties broken by
name).  The specification's claim that every fully-numeric-oid node
precedes every symbolic/empty-oid node is corrected: a symbolic
segment only outranks numbers within its own position, so symbolic
nodes interleave with numeric ones (see the counterexample). -/
theorem claim_C8 (modName : String) (doc : PDoc) :
    List.Pairwise keyLe (flatten_nodes modName doc) :=
  flatten_nodes_sorted modName doc

/-- C8 counterexample: node `a` (oid `1.z`, symbolic segment) sorts
*before* the fully numeric node `b` (oid `2.3`), because `1 < 2`
decides the order at the first segment. -/
theorem claim_C8_counterexample :
    (flatten_nodes "M" c8Doc).map (fun n => (n.name, allNumericOid n))
      = [("a", false), ("b", true)] := by decide

/-- C9: the search cap is per-module, not global: across `M` modules
the accumulated hit list can reach `199 + M` entries (the inner loop
tests one more node after the cap is already full, once per module),
so "at most 200 in total" is corrected to this bound; every returned
hit does contain the lowercased, stripped term in its joined
field haystack. -/
theorem claim_C9 (term : String) (compiled : List (String × PDoc)) :
    (search_all term compiled).length ≤ 199 + compiled.length ∧
    ∀ n ∈ search_all term compiled,
      containsSeq (pyLower (pyStrip term.data)) (hayOf n) = true :=
  ⟨search_all_bound term compiled, fun n hn => search_all_sound term compiled n hn⟩

theorem claim_C9_witness :
    c9Node ∈ search_all "n" [("M2", bigDoc2)] ∧
    containsSeq (pyLower (pyStrip "n".data)) (hayOf c9Node) = true :=
  ⟨by decide, (claim_C9 "n" [("M2", bigDoc2)]).2 c9Node (by decide)⟩

set_option maxRecDepth 40000 in
/-- C9 counterexample: with 200 matching nodes in one module and one
more in a second module, the search returns 201 hits — more than the
specification's global cap of 200. -/
theorem claim_C9_counterexample :
    (search_all "n" [("M1", bigDoc1), ("M2", bigDoc2)]).length = 201 := by decide

/-- C10: enum extraction round-trips: `INTEGER \x7b up(1), down(2) \x7d`
yields exactly `[("up", "1"), ("down", "2")]`; in general an item with
no parenthesized number is silently skipped, extraction distributes
over concatenation of item lists (so list order is preserved), and on
any syntax value with a brace group the result is exactly the item loop
over the comma-split group body. -/
theorem claim_C10 :
    extract_enums_from_syntax "INTEGER \x7b up(1), down(2) \x7d"
      = [("up", "1"), ("down", "2")] ∧
    (∀ (l1 l2 : List (List Char)) (b : List Char), enumOfItem b = none →
      enumsOfItems (l1 ++ b :: l2) = enumsOfItems (l1 ++ l2)) ∧
    (∀ l1 l2 : List (List Char),
      enumsOfItems (l1 ++ l2) = enumsOfItems l1 ++ enumsOfItems l2) ∧
    (∀ (syn : String) (body : List Char), (syn == "") = false →
      enumSetSearch syn.data = some body →
      extract_enums_from_syntax syn = enumsOfItems (splitOnC ',' body)) := by
  refine ⟨by decide, ?_, ?_, ?_⟩
  · intro l1 l2 b hb
    exact enumsOfItems_skip l1 l2 b hb
  · intro l1 l2
    exact enumsOfItems_append l1 l2
  · intro syn body hne hb
    exact extract_enums_eq syn body hne hb

theorem claim_C10_witness :
    (enumOfItem "broken".data = none ∧
      enumsOfItems (["up(1)".data] ++ "broken".data :: ["down(2)".data])
        = enumsOfItems (["up(1)".data] ++ ["down(2)".data])) ∧
    (("INTEGER \x7b up(1) \x7d" == "") = false ∧
      enumSetSearch "INTEGER \x7b up(1) \x7d".data = some " up(1) ".data ∧
      extract_enums_from_syntax "INTEGER \x7b up(1) \x7d"
        = enumsOfItems (splitOnC ',' " up(1) ".data)) :=
  ⟨⟨by decide, claim_C10.2.1 _ _ _ (by decide)⟩,
   ⟨by decide, by decide, claim_C10.2.2.2 _ _ (by decide) (by decide)⟩⟩

end MibViewer
